import Mathlib

/-!
Verification of the tldraw-pdf document-canvas synchronization engine.

Each definition is a shallow embedding of a function of the repository
(src/src/App.tsx, src/src/PdfEditor.tsx, src/unnamed/part_000,
src/unnamed/part_001, src/unnamed/part_002).  JavaScript numbers that only
ever hold integers or halves of integers are modelled as rationals;
fallible operations return Except/Option.
-/

namespace TldrawPdf

/-! ## PageLayoutBuilder (src/src/App.tsx, initializeFromPageImages) -/

/-- A page placement rectangle, tldraw's Box with the fields the layout
uses: x, y, w, h. -/
structure Box where
  x : ℚ
  y : ℚ
  w : ℚ
  h : ℚ
  deriving DecidableEq, Repr

/-- The constant pageSpacing = 32 of src/src/App.tsx line 33. -/
def pageSpacing : ℚ := 32

/-- First pass of initializeFromPageImages (src/src/App.tsx lines 51-68):
walks the page dimension list accumulating the running vertical offset
top, and pushes Box(0, top, width, height) for each page, with
top := top + height + pageSpacing after each page. -/
def stackPages : List (ℚ × ℚ) → ℚ → List Box
  | [], _ => []
  | (w, h) :: rest, top => ⟨0, top, w, h⟩ :: stackPages rest (top + h + pageSpacing)

/-- The widest accumulator of initializeFromPageImages: starts at 0 and
takes the max of all page widths (src/src/App.tsx lines 39, 67). -/
def widestOf (dims : List (ℚ × ℚ)) : ℚ :=
  dims.foldl (fun acc wh => max acc wh.1) 0

/-- Shallow embedding of initializeFromPageImages (src/src/App.tsx lines
36-80), restricted to the geometry it computes.  The async image probe is
modelled by taking each page's (width, height) as input; the function then
performs the source's two passes: stack the pages vertically with 32 units
of spacing, then centre each page horizontally within the widest width
(page.bounds.x := (widest - page.bounds.width) / 2). -/
def initializeFromPageImages (dims : List (ℚ × ℚ)) : List Box :=
  let widest := widestOf dims
  (stackPages dims 0).map (fun b => { b with x := (widest - b.w) / 2 })

/-- Sum of the heights of the pages before index i. -/
def priorHeights (dims : List (ℚ × ℚ)) (i : ℕ) : ℚ :=
  ((dims.take i).map Prod.snd).sum

theorem stackPages_length (dims : List (ℚ × ℚ)) (top : ℚ) :
    (stackPages dims top).length = dims.length := by
  induction dims generalizing top with
  | nil => rfl
  | cons d rest ih => simp [stackPages, ih]

theorem initializeFromPageImages_length (dims : List (ℚ × ℚ)) :
    (initializeFromPageImages dims).length = dims.length := by
  simp [initializeFromPageImages, stackPages_length]

theorem stackPages_get (dims : List (ℚ × ℚ)) (top : ℚ) (i : ℕ)
    (hi : i < dims.length) :
    (stackPages dims top).get ⟨i, by rwa [stackPages_length]⟩ =
      ⟨0, top + priorHeights dims i + pageSpacing * i,
        (dims.get ⟨i, hi⟩).1, (dims.get ⟨i, hi⟩).2⟩ := by
  induction dims generalizing top i with
  | nil => exact absurd hi (by simp)
  | cons d rest ih =>
    cases i with
    | zero => simp [stackPages, priorHeights]
    | succ j =>
      have hj : j < rest.length := by simpa using hi
      have := ih (top + d.2 + pageSpacing) j hj
      simp only [stackPages, List.get_cons_succ, priorHeights, List.take_succ_cons,
        List.map_cons, List.sum_cons] at this ⊢
      rw [this]
      congr 1
      push_cast
      ring

theorem base_le_foldl_max (l : List ℚ) (a : ℚ) : a ≤ l.foldl max a := by
  induction l generalizing a with
  | nil => exact le_refl a
  | cons b rest ih => exact le_trans (le_max_left a b) (ih (max a b))

theorem le_foldl_max (l : List ℚ) (a x : ℚ) (hx : x = a ∨ x ∈ l) :
    x ≤ l.foldl max a := by
  induction l generalizing a with
  | nil => simp at hx; simp [hx]
  | cons b rest ih =>
    rcases hx with h | h
    · subst h
      exact le_trans (le_max_left x b) (base_le_foldl_max rest (max x b))
    · rcases List.mem_cons.mp h with h | h
      · subst h
        exact le_trans (le_max_right a x) (base_le_foldl_max rest (max a x))
      · exact ih (max a b) (Or.inr h)

theorem foldl_max_mem (l : List ℚ) (a : ℚ) :
    l.foldl max a = a ∨ l.foldl max a ∈ l := by
  induction l generalizing a with
  | nil => exact Or.inl rfl
  | cons b rest ih =>
    rcases ih (max a b) with h | h
    · rcases max_cases a b with ⟨he, _⟩ | ⟨he, _⟩
      · exact Or.inl (by simpa [he] using h)
      · exact Or.inr (by simp [List.foldl_cons, he] at h ⊢; simp [h])
    · exact Or.inr (List.mem_cons_of_mem b h)

theorem widestOf_eq_foldl_map (dims : List (ℚ × ℚ)) :
    widestOf dims = (dims.map Prod.fst).foldl max 0 := by
  simp [widestOf, List.foldl_map]

theorem widest_is_max (dims : List (ℚ × ℚ)) (hw : ∀ d ∈ dims, 0 ≤ d.1)
    (hne : dims ≠ []) :
    widestOf dims ∈ dims.map Prod.fst ∧
      ∀ d ∈ dims, d.1 ≤ widestOf dims := by
  have hle : ∀ d ∈ dims, d.1 ≤ widestOf dims := by
    intro d hd
    rw [widestOf_eq_foldl_map]
    exact le_foldl_max _ 0 _ (Or.inr (List.mem_map_of_mem Prod.fst hd))
  refine ⟨?_, hle⟩
  have hmem : widestOf dims = 0 ∨ widestOf dims ∈ dims.map Prod.fst := by
    rw [widestOf_eq_foldl_map]
    exact foldl_max_mem (dims.map Prod.fst) 0
  rcases hmem with h0 | hm
  · rcases dims with _ | ⟨d, rest⟩
    · exact absurd rfl hne
    · have h1 : d.1 ≤ 0 := h0 ▸ hle d (List.mem_cons_self d rest)
      have h2 : (0 : ℚ) ≤ d.1 := hw d (List.mem_cons_self d rest)
      have h3 : d.1 = 0 := le_antisymm h1 h2
      simp [h0, ← h3]
  · exact hm

/-- C1: for every ordered list of page images with known pixel dimensions
(widths nonnegative, as pixel widths are), initializeFromPageImages places
page i at vertical offset y = (sum of the heights of all prior pages) +
32 * i, at horizontal offset x = (maxWidth - pageWidth) / 2 where maxWidth
is the widest accumulator, which is the maximum page width occurring in
the list; the page keeps its own width and height. -/
theorem layout_offsets_spec (dims : List (ℚ × ℚ)) (hw : ∀ d ∈ dims, 0 ≤ d.1)
    (i : ℕ) (hi : i < dims.length) :
    ((initializeFromPageImages dims).get
        ⟨i, by rwa [initializeFromPageImages_length]⟩ =
      ⟨(widestOf dims - (dims.get ⟨i, hi⟩).1) / 2,
        priorHeights dims i + 32 * i,
        (dims.get ⟨i, hi⟩).1, (dims.get ⟨i, hi⟩).2⟩) ∧
      widestOf dims ∈ dims.map Prod.fst ∧
      ∀ d ∈ dims, d.1 ≤ widestOf dims := by
  have hne : dims ≠ [] := by
    intro h
    rw [h] at hi
    exact absurd hi (by simp)
  refine ⟨?_, widest_is_max dims hw hne⟩
  have hget := stackPages_get dims 0 i hi
  simp only [initializeFromPageImages, List.get_eq_getElem, List.getElem_map]
  simp only [List.get_eq_getElem] at hget
  rw [hget]
  simp [pageSpacing]

/-- The dimension list of the spec scenario: 100x200 and 150x300. -/
def layoutDemo : List (ℚ × ℚ) := [(100, 200), (150, 300)]

/-- Witness for C1, the spec scenario: pages 100x200 and 150x300 are
placed at (25, 0, 100, 200) and (0, 232, 150, 300). -/
theorem layout_offsets_spec_witness :
    initializeFromPageImages layoutDemo =
        [⟨25, 0, 100, 200⟩, ⟨0, 232, 150, 300⟩] ∧
      (((initializeFromPageImages layoutDemo).get
          ⟨1, by rw [initializeFromPageImages_length]; decide⟩ =
        ⟨(widestOf layoutDemo - (layoutDemo.get ⟨1, by decide⟩).1) / 2,
          priorHeights layoutDemo 1 + 32 * 1,
          (layoutDemo.get ⟨1, by decide⟩).1, (layoutDemo.get ⟨1, by decide⟩).2⟩) ∧
        widestOf layoutDemo ∈ layoutDemo.map Prod.fst ∧
        ∀ d ∈ layoutDemo, d.1 ≤ widestOf layoutDemo) := by
  constructor
  · simp only [layoutDemo, initializeFromPageImages, stackPages, widestOf,
      pageSpacing, List.foldl, List.map]
    norm_num
  · exact layout_offsets_spec layoutDemo (by decide) 1 (by decide)

/-! ## ZOrderGuardian (src/src/PdfEditor.tsx, makeSureShapesAreAtBottom)

A canvas page is modelled as a list of sibling shapes.  tldraw's IndexKey
fractional ordering keys form a dense linear order; the fixup only ever
compares keys and allocates keys strictly below an existing key, so the
key type is modelled as ℤ (kernel-computable), which supports both
operations used. -/

/-- A tldraw shape record, restricted to the fields the PdfEditor touches:
id, type, isLocked, the ordering key index, and position x/y standing for
the remaining fields (C10 checks they are preserved). -/
structure Shape where
  id : ℕ
  type : String
  isLocked : Bool
  index : ℤ
  x : ℚ
  y : ℚ
  deriving DecidableEq, Repr

/-- The TLShapePartial built by makeSureShapesAreAtBottom lines 58-63:
{ id, type, isLocked, index }. -/
structure ShapeUpdate where
  id : ℕ
  type : String
  isLocked : Bool
  index : ℤ
  deriving DecidableEq, Repr

/-- editor.getShape: look a shape up by id in the page's shape list. -/
def getShape (st : List Shape) (i : ℕ) : Option Shape :=
  st.find? (fun s => s.id == i)

/-- tldraw's sortByIndex comparator on the ordering key. -/
def idxLe (a b : Shape) : Prop := a.index ≤ b.index

instance : DecidableRel idxLe := fun a b => Int.decLe a.index b.index

instance : IsTotal Shape idxLe := ⟨fun a b => Int.le_total a.index b.index⟩

instance : IsTrans Shape idxLe := ⟨fun _ _ _ => Int.le_trans⟩

/-- .sort(sortByIndex): sort shapes by ordering key. -/
def sortByIndex (l : List Shape) : List Shape := List.insertionSort idxLe l

/-- editor.getSortedChildIdsForParent(pageId): the sibling ids in ordering
key order. -/
def getSortedChildIds (st : List Shape) : List ℕ := (sortByIndex st).map Shape.id

/-- Model of tldraw's getIndicesBetween(undefined, above, n) (an external
collaborator, spec section 6: an ordering-key allocator producing keys
between two existing keys): n strictly increasing keys strictly below
above. -/
def getIndicesBetween (above : ℤ) (n : ℕ) : List ℤ :=
  (List.range n).map (fun i : ℕ => above - (n : ℤ) + (i : ℤ))

/-- Applying one TLShapePartial to the shape record it addresses: the
partial carries type, isLocked and index. -/
def applyUpdate (s : Shape) (u : ShapeUpdate) : Shape :=
  { s with type := u.type, isLocked := u.isLocked, index := u.index }

/-- How one store record reacts to a batch of updates: the update
addressing its id is applied, otherwise the record is untouched. -/
def updateF (us : List ShapeUpdate) (s : Shape) : Shape :=
  match us.find? (fun u => u.id == s.id) with
  | some u => applyUpdate s u
  | none => s

/-- editor.updateShapes: batch update; each shape that an update addresses
is rewritten by it, every other shape is untouched. -/
def updateShapes (st : List Shape) (us : List ShapeUpdate) : List Shape :=
  st.map (updateF us)

/-- The batch of TLShapePartials built in lines 57-64 of
makeSureShapesAreAtBottom: shapes.map((shape, i) =>
({ id, type, isLocked, index: indexes[i] })). -/
def writeUpdates (ps : List Shape) (bIdx : ℤ) : List ShapeUpdate :=
  (ps.zip (getIndicesBetween bIdx ps.length)).map
    (fun p => ⟨p.1.id, p.1.type, p.1.isLocked, p.2⟩)

/-- The valid pinned shapes sorted by ordering key (lines 29-32 of
makeSureShapesAreAtBottom: shapeIds.map(getShape).filter(valid).sort). -/
def pinnedSorted (st : List Shape) (ids : List ℕ) : List Shape :=
  sortByIndex (ids.filterMap (getShape st))

/-- Shallow embedding of makeSureShapesAreAtBottom
(src/src/PdfEditor.tsx lines 27-65), also returning whether the batch
update was issued (false on every early return).  The shapeIdSet argument
of the source is shapeIds viewed as a set; membership tests use the list. -/
def makeSureCore (st : List Shape) (shapeIds : List ℕ) : List Shape × Bool :=
  if pinnedSorted st shapeIds = [] then (st, false)
  else if getSortedChildIds st = [] then (st, false)
  else if (((getSortedChildIds st).take (pinnedSorted st shapeIds).length).filterMap
      (getShape st)) = [] then (st, false)
  else if (((((getSortedChildIds st).take (pinnedSorted st shapeIds).length).filterMap
      (getShape st))).zip (pinnedSorted st shapeIds)).all
      (fun p => p.1.id == p.2.id) then (st, false)
  else
    match (getSortedChildIds st).filter (fun i => !(shapeIds.contains i)) with
    | [] => (st, false)
    | b :: _ =>
      match getShape st b with
      | none => (st, false)
      | some bottomSibling =>
        (updateShapes st
          (writeUpdates (pinnedSorted st shapeIds) bottomSibling.index), true)

/-- makeSureShapesAreAtBottom as the source exposes it: the new state. -/
def makeSureShapesAreAtBottom (st : List Shape) (shapeIds : List ℕ) : List Shape :=
  (makeSureCore st shapeIds).1

/-- Sibling-list wellformedness maintained by the tldraw store: distinct
shape ids and distinct ordering keys among siblings. -/
def Wellformed (st : List Shape) : Prop :=
  st.Pairwise (fun a b => a.id ≠ b.id ∧ a.index ≠ b.index)

/-- Strict ordering-key comparison. -/
def idxLt (a b : Shape) : Prop := a.index < b.index

instance : DecidableRel idxLt := fun a b => Int.decLt a.index b.index

instance : IsAntisymm Shape idxLt :=
  ⟨fun _ _ h1 h2 => absurd h2 (not_lt.mpr (le_of_lt h1))⟩

theorem getShape_some {st : List Shape} {i : ℕ} {s : Shape}
    (h : getShape st i = some s) : s ∈ st ∧ s.id = i := by
  refine ⟨List.mem_of_find?_eq_some h, ?_⟩
  have := List.find?_some h
  simpa using this

theorem getShape_isSome_of_mem {st : List Shape} {s : Shape} (hs : s ∈ st) :
    (getShape st s.id).isSome := by
  rw [getShape, List.find?_isSome]
  exact ⟨s, hs, by simp⟩

theorem wellformed_ids_pairwise {st : List Shape} (h : Wellformed st) :
    st.Pairwise (fun a b => a.id ≠ b.id) :=
  h.imp (fun hab => hab.1)

theorem wellformed_idx_pairwise {st : List Shape} (h : Wellformed st) :
    st.Pairwise (fun a b => a.index ≠ b.index) :=
  h.imp (fun hab => hab.2)

theorem wellformed_nodup {st : List Shape} (h : Wellformed st) : st.Nodup :=
  (wellformed_ids_pairwise h).imp (fun hab => fun he => hab (he ▸ rfl))

theorem getShape_eq_of_mem {st : List Shape}
    (hids : st.Pairwise (fun a b => a.id ≠ b.id)) {s : Shape} (hs : s ∈ st) :
    getShape st s.id = some s := by
  induction st with
  | nil => exact absurd hs (by simp)
  | cons t rest ih =>
    rcases List.mem_cons.mp hs with h | h
    · subst h
      simp [getShape, List.find?]
    · have hne : t.id ≠ s.id := (List.pairwise_cons.mp hids).1 s h
      have : (s.id == t.id) = false := by
        simp [beq_iff_eq]
        exact fun he => hne he.symm
      simp only [getShape, List.find?]
      rw [show (t.id == s.id) = false by simp [beq_iff_eq]; exact hne]
      exact ih (List.pairwise_cons.mp hids).2 h

theorem sortByIndex_perm (l : List Shape) : List.Perm (sortByIndex l) l :=
  List.perm_insertionSort idxLe l

theorem sortByIndex_sorted (l : List Shape) : List.Sorted idxLe (sortByIndex l) :=
  List.sorted_insertionSort idxLe l

theorem sortByIndex_mem {l : List Shape} {s : Shape} :
    s ∈ sortByIndex l ↔ s ∈ l :=
  (sortByIndex_perm l).mem_iff

theorem sorted_lt_of_le {l : List Shape} (hs : List.Sorted idxLe l)
    (hd : l.Pairwise (fun a b => a.index ≠ b.index)) : List.Sorted idxLt l :=
  (hs.and hd).imp (fun h => lt_of_le_of_ne h.1 h.2)

theorem idx_ne_symm : Symmetric (fun a b : Shape => a.index ≠ b.index) :=
  fun _ _ h he => h he.symm

theorem id_ne_symm : Symmetric (fun a b : Shape => a.id ≠ b.id) :=
  fun _ _ h he => h he.symm

theorem sortByIndex_sorted_lt {st : List Shape}
    (hd : st.Pairwise (fun a b => a.index ≠ b.index)) :
    List.Sorted idxLt (sortByIndex st) :=
  sorted_lt_of_le (sortByIndex_sorted st)
    (((sortByIndex_perm st).pairwise_iff (fun h he => h he.symm)).mpr hd)

/-- The non-pinned siblings in ordering-key order. -/
def nonPinnedSorted (st : List Shape) (ids : List ℕ) : List Shape :=
  (sortByIndex st).filter (fun s => !(ids.contains s.id))

theorem pinnedFound_map_id {st : List Shape} {ids : List ℕ}
    (hpres : ∀ i ∈ ids, ∃ s ∈ st, s.id = i) :
    (ids.filterMap (getShape st)).map Shape.id = ids := by
  induction ids with
  | nil => rfl
  | cons i rest ih =>
    obtain ⟨s, hs, hid⟩ := hpres i (List.mem_cons_self i rest)
    have hsome : (getShape st i).isSome := hid ▸ getShape_isSome_of_mem hs
    obtain ⟨t, ht⟩ := Option.isSome_iff_exists.mp hsome
    have htid : t.id = i := (getShape_some ht).2
    simp [List.filterMap_cons, ht, htid,
      ih (fun j hj => hpres j (List.mem_cons_of_mem i hj))]

theorem mem_pinnedFound {st : List Shape} {ids : List ℕ} {s : Shape}
    (h : s ∈ ids.filterMap (getShape st)) : s ∈ st ∧ s.id ∈ ids := by
  obtain ⟨i, hi, hget⟩ := List.mem_filterMap.mp h
  obtain ⟨hmem, hid⟩ := getShape_some hget
  exact ⟨hmem, hid ▸ hi⟩

theorem mem_pinnedFound_of {st : List Shape} {ids : List ℕ} {s : Shape}
    (hids : st.Pairwise (fun a b => a.id ≠ b.id)) (hmem : s ∈ st)
    (hid : s.id ∈ ids) : s ∈ ids.filterMap (getShape st) :=
  List.mem_filterMap.mpr ⟨s.id, hid, getShape_eq_of_mem hids hmem⟩

theorem mem_pinnedSorted {st : List Shape} {ids : List ℕ} {s : Shape} :
    s ∈ pinnedSorted st ids ↔ s ∈ ids.filterMap (getShape st) :=
  sortByIndex_mem

theorem mem_nonPinnedSorted {st : List Shape} {ids : List ℕ} {s : Shape} :
    s ∈ nonPinnedSorted st ids ↔ s ∈ st ∧ s.id ∉ ids := by
  rw [nonPinnedSorted, List.mem_filter, sortByIndex_mem]
  simp

theorem getIndicesBetween_length (a : ℤ) (n : ℕ) :
    (getIndicesBetween a n).length = n := by
  rw [getIndicesBetween, List.length_map, List.length_range]

theorem getIndicesBetween_getElem (a : ℤ) (n : ℕ) (i : ℕ)
    (hi : i < (getIndicesBetween a n).length) :
    (getIndicesBetween a n)[i] = a - n + i := by
  simp [getIndicesBetween]

theorem getIndicesBetween_lt (a : ℤ) (n : ℕ) :
    ∀ x ∈ getIndicesBetween a n, x < a := by
  intro x hx
  rw [getIndicesBetween] at hx
  obtain ⟨i, hi, he⟩ := List.mem_map.mp hx
  have hiltn : i < n := List.mem_range.mp hi
  omega

theorem filterMap_getShape_map_id {st : List Shape}
    (hids : st.Pairwise (fun a b => a.id ≠ b.id)) {l : List Shape}
    (hl : ∀ s ∈ l, s ∈ st) :
    (l.map Shape.id).filterMap (getShape st) = l := by
  induction l with
  | nil => rfl
  | cons t rest ih =>
    have hget : getShape st t.id = some t :=
      getShape_eq_of_mem hids (hl t (List.mem_cons_self t rest))
    simp [List.filterMap_cons, hget,
      ih (fun s hs => hl s (List.mem_cons_of_mem t hs))]

/-- The pinned shapes with their ordering keys reassigned to the freshly
allocated block below bIdx, in place. -/
def reindexed (ps : List Shape) (bIdx : ℤ) : List Shape :=
  List.zipWith (fun s ix => { s with index := ix }) ps
    (getIndicesBetween bIdx ps.length)

theorem reindexed_length (ps : List Shape) (b : ℤ) :
    (reindexed ps b).length = ps.length := by
  simp [reindexed, getIndicesBetween_length]

theorem reindexed_getElem (ps : List Shape) (b : ℤ) (k : ℕ)
    (hk : k < ps.length) (hkr : k < (reindexed ps b).length) :
    (reindexed ps b)[k] = { ps[k] with index := b - ps.length + k } := by
  have hk2 : k < (getIndicesBetween b ps.length).length := by
    rwa [getIndicesBetween_length]
  simp only [reindexed, List.getElem_zipWith]
  rw [getIndicesBetween_getElem]

theorem reindexed_map_id (ps : List Shape) (b : ℤ) :
    (reindexed ps b).map Shape.id = ps.map Shape.id := by
  refine List.ext_getElem (by simp [reindexed_length]) ?_
  intro k h1 h2
  have hk : k < ps.length := by simpa using h2
  simp only [List.getElem_map]
  rw [reindexed_getElem ps b k hk (by rwa [reindexed_length])]

theorem reindexed_index_lt (ps : List Shape) (b : ℤ) :
    ∀ x ∈ reindexed ps b, x.index < b := by
  intro x hx
  obtain ⟨k, hk, hx⟩ := List.mem_iff_getElem.mp hx
  have hk2 : k < ps.length := by rwa [reindexed_length] at hk
  rw [reindexed_getElem ps b k hk2 hk] at hx
  subst hx
  simp only []
  omega

theorem reindexed_sorted_lt (ps : List Shape) (b : ℤ) :
    List.Sorted idxLt (reindexed ps b) := by
  rw [List.Sorted, List.pairwise_iff_getElem]
  intro i j hi hj hij
  have hi2 : i < ps.length := by rwa [reindexed_length] at hi
  have hj2 : j < ps.length := by rwa [reindexed_length] at hj
  rw [reindexed_getElem ps b i hi2 hi, reindexed_getElem ps b j hj2 hj]
  show b - ps.length + i < b - ps.length + j
  omega

theorem writeUpdates_length (ps : List Shape) (b : ℤ) :
    (writeUpdates ps b).length = ps.length := by
  simp [writeUpdates, getIndicesBetween_length]

theorem writeUpdates_getElem (ps : List Shape) (b : ℤ) (k : ℕ)
    (hk : k < ps.length) (hkw : k < (writeUpdates ps b).length) :
    (writeUpdates ps b)[k] =
      ⟨ps[k].id, ps[k].type, ps[k].isLocked, b - ps.length + k⟩ := by
  have hk2 : k < (getIndicesBetween b ps.length).length := by
    rwa [getIndicesBetween_length]
  simp only [writeUpdates, List.getElem_map, List.getElem_zip]
  rw [getIndicesBetween_getElem]

theorem writeUpdates_map_id (ps : List Shape) (b : ℤ) :
    (writeUpdates ps b).map ShapeUpdate.id = ps.map Shape.id := by
  refine List.ext_getElem (by simp [writeUpdates_length]) ?_
  intro k h1 h2
  have hk : k < ps.length := by simpa using h2
  simp only [List.getElem_map]
  rw [writeUpdates_getElem ps b k hk (by rwa [writeUpdates_length])]

theorem find?_by_id_eq (us : List ShapeUpdate)
    (hnd : (us.map ShapeUpdate.id).Nodup) (k : ℕ) (hk : k < us.length) :
    us.find? (fun u => u.id == us[k].id) = some us[k] := by
  induction us generalizing k with
  | nil => exact absurd hk (by simp)
  | cons u0 rest ih =>
    cases k with
    | zero => simp [List.find?]
    | succ j =>
      have hj : j < rest.length := by simpa using hk
      have hids : (rest.map ShapeUpdate.id).Nodup := (List.nodup_cons.mp hnd).2
      have hne : u0.id ≠ rest[j].id := by
        intro he
        exact (List.nodup_cons.mp hnd).1
          (he ▸ List.mem_map_of_mem ShapeUpdate.id (rest.getElem_mem hj))
      have : (u0.id == (u0 :: rest)[j + 1].id) = false := by
        simpa using hne
      simp only [List.find?, this]
      simpa using ih hids j hj

theorem updateF_not_addressed {us : List ShapeUpdate} {s : Shape}
    (h : s.id ∉ us.map ShapeUpdate.id) : updateF us s = s := by
  have hnone : us.find? (fun u => u.id == s.id) = none := by
    rw [List.find?_eq_none]
    intro u hu
    simp only [beq_iff_eq]
    intro he
    exact h (he ▸ List.mem_map_of_mem ShapeUpdate.id hu)
  simp [updateF, hnone]

theorem pinnedFound_map_id_sublist (st : List Shape) (ids : List ℕ) :
    List.Sublist ((ids.filterMap (getShape st)).map Shape.id) ids := by
  induction ids with
  | nil => simp
  | cons i rest ih =>
    rw [List.filterMap_cons]
    cases hg : getShape st i with
    | none => exact ih.cons i
    | some t =>
      have hid : t.id = i := (getShape_some hg).2
      simpa [hid] using ih.cons₂ i

theorem pinnedSorted_map_id_nodup {st : List Shape} {ids : List ℕ}
    (hnd : ids.Nodup) : ((pinnedSorted st ids).map Shape.id).Nodup := by
  have h1 : ((ids.filterMap (getShape st)).map Shape.id).Nodup :=
    hnd.sublist (pinnedFound_map_id_sublist st ids)
  exact (((sortByIndex_perm (ids.filterMap (getShape st))).map Shape.id).nodup_iff).mpr h1

theorem pinnedSorted_nodup {st : List Shape} {ids : List ℕ}
    (hnd : ids.Nodup) : (pinnedSorted st ids).Nodup :=
  (pinnedSorted_map_id_nodup hnd).of_map Shape.id

theorem pinnedSorted_id_mem {st : List Shape} {ids : List ℕ} {s : Shape}
    (hs : s ∈ pinnedSorted st ids) : s ∈ st ∧ s.id ∈ ids :=
  mem_pinnedFound (mem_pinnedSorted.mp hs)

theorem pairwise_idx_ne_of_sub {st l : List Shape} (hW : Wellformed st)
    (hsub : ∀ s ∈ l, s ∈ st) (hnd : l.Nodup) :
    l.Pairwise (fun a b => a.index ≠ b.index) := by
  rw [List.pairwise_iff_getElem]
  intro i j hi hj hij
  have hne : l[i] ≠ l[j] := by
    intro he
    exact absurd (hnd.getElem_inj_iff.mp he) (Nat.ne_of_lt hij)
  exact (wellformed_idx_pairwise hW).forall idx_ne_symm
    (hsub _ (l.getElem_mem hi)) (hsub _ (l.getElem_mem hj)) hne

theorem pinnedSorted_sorted_lt {st : List Shape} {ids : List ℕ}
    (hW : Wellformed st) (hnd : ids.Nodup) :
    List.Sorted idxLt (pinnedSorted st ids) := by
  refine sorted_lt_of_le (sortByIndex_sorted _) ?_
  refine pairwise_idx_ne_of_sub hW ?_ (pinnedSorted_nodup hnd)
  exact fun s hs => (pinnedSorted_id_mem hs).1

theorem updateF_id (us : List ShapeUpdate) (s : Shape) :
    (updateF us s).id = s.id := by
  rw [updateF]
  cases us.find? (fun u => u.id == s.id) with
  | none => rfl
  | some u => rfl

theorem updateShapes_map_id (st : List Shape) (us : List ShapeUpdate) :
    (updateShapes st us).map Shape.id = st.map Shape.id := by
  rw [updateShapes, List.map_map]
  exact List.map_congr_left (fun s _ => updateF_id us s)

theorem map_updateF_pinnedSorted (st : List Shape) (ids : List ℕ) (b : ℤ)
    (hnd : ids.Nodup) :
    (pinnedSorted st ids).map
        (updateF (writeUpdates (pinnedSorted st ids) b)) =
      reindexed (pinnedSorted st ids) b := by
  refine List.ext_getElem (by simp [reindexed_length]) ?_
  intro k h1 h2
  have hk : k < (pinnedSorted st ids).length := by
    rwa [reindexed_length] at h2
  simp only [List.getElem_map]
  have hk' : k < (writeUpdates (pinnedSorted st ids) b).length := by
    rwa [writeUpdates_length]
  have hndu : ((writeUpdates (pinnedSorted st ids) b).map ShapeUpdate.id).Nodup := by
    rw [writeUpdates_map_id]
    exact pinnedSorted_map_id_nodup hnd
  have hfind := find?_by_id_eq (writeUpdates (pinnedSorted st ids) b) hndu k hk'
  have hu := writeUpdates_getElem (pinnedSorted st ids) b k hk hk'
  rw [hu] at hfind
  rw [updateF]
  simp only at hfind
  rw [hfind, reindexed_getElem _ b k hk (by rwa [reindexed_length])]
  rfl

theorem nonPinnedSorted_sorted_lt {st : List Shape} {ids : List ℕ}
    (hW : Wellformed st) : List.Sorted idxLt (nonPinnedSorted st ids) :=
  (sortByIndex_sorted_lt (wellformed_idx_pairwise hW)).sublist
    (List.filter_sublist (sortByIndex st))

theorem filter_sortByIndex_pinned {st : List Shape} {ids : List ℕ}
    (hW : Wellformed st) (hnd : ids.Nodup) :
    (sortByIndex st).filter (fun s => ids.contains s.id) =
      pinnedSorted st ids := by
  have hsort : List.Sorted idxLt (sortByIndex st) :=
    sortByIndex_sorted_lt (wellformed_idx_pairwise hW)
  have hndst : (sortByIndex st).Nodup :=
    ((sortByIndex_perm st).nodup_iff).mpr (wellformed_nodup hW)
  refine List.eq_of_perm_of_sorted ?_
    (hsort.sublist (List.filter_sublist (sortByIndex st)))
    (pinnedSorted_sorted_lt hW hnd)
  refine (List.perm_ext_iff_of_nodup
      (hndst.sublist (List.filter_sublist (sortByIndex st)))
      (pinnedSorted_nodup hnd)).mpr ?_
  intro s
  rw [List.mem_filter, sortByIndex_mem, mem_pinnedSorted]
  constructor
  · rintro ⟨hmem, hcont⟩
    exact mem_pinnedFound_of (wellformed_ids_pairwise hW) hmem (by simpa using hcont)
  · intro h
    obtain ⟨hmem, hid⟩ := mem_pinnedFound h
    exact ⟨hmem, by simpa using hid⟩

theorem pinnedSorted_ids_subset {st : List Shape} {ids : List ℕ} :
    ∀ i ∈ (pinnedSorted st ids).map Shape.id, i ∈ ids := by
  intro i hi
  obtain ⟨s, hs, he⟩ := List.mem_map.mp hi
  exact he ▸ (pinnedSorted_id_mem hs).2

theorem sortByIndex_write {st : List Shape} {ids : List ℕ} {bs : Shape}
    (hW : Wellformed st) (hnd : ids.Nodup)
    (hmin : ∀ q ∈ st, q.id ∉ ids → bs.index ≤ q.index) :
    sortByIndex (updateShapes st (writeUpdates (pinnedSorted st ids) bs.index)) =
      reindexed (pinnedSorted st ids) bs.index ++ nonPinnedSorted st ids := by
  set ps := pinnedSorted st ids with hps
  set us := writeUpdates ps bs.index with hus
  set np := reindexed ps bs.index with hnp
  set nonP := nonPinnedSorted st ids with hnonP
  set st' := updateShapes st us with hst'
  -- every element of nonP is a non-pinned member of st, with key at least bs.index
  have hnonP_mem : ∀ q ∈ nonP, q ∈ st ∧ q.id ∉ ids := fun q hq =>
    mem_nonPinnedSorted.mp hq
  have hnonP_ge : ∀ q ∈ nonP, bs.index ≤ q.index := fun q hq =>
    hmin q (hnonP_mem q hq).1 (hnonP_mem q hq).2
  have hnp_lt : ∀ x ∈ np, x.index < bs.index := reindexed_index_lt ps bs.index
  -- the right-hand side is strictly sorted
  have hrhs_sorted : List.Sorted idxLt (np ++ nonP) := by
    rw [List.Sorted, List.pairwise_append]
    exact ⟨reindexed_sorted_lt ps bs.index, nonPinnedSorted_sorted_lt hW,
      fun x hx y hy => lt_of_lt_of_le (hnp_lt x hx) (hnonP_ge y hy)⟩
  -- permutation: st' is a permutation of np ++ nonP
  have hperm : List.Perm st' (np ++ nonP) := by
    have h1 : List.Perm st' ((sortByIndex st).map (updateF us)) :=
      ((sortByIndex_perm st).map (updateF us)).symm
    have h2 : List.Perm ((sortByIndex st).map (updateF us))
        ((((sortByIndex st).filter (fun s => ids.contains s.id)) ++
          ((sortByIndex st).filter (fun s => !(ids.contains s.id)))).map
            (updateF us)) :=
      ((List.filter_append_perm (fun s => ids.contains s.id)
        (sortByIndex st)).map (updateF us)).symm
    rw [List.map_append] at h2
    have h3 : ((sortByIndex st).filter (fun s => ids.contains s.id)).map
        (updateF us) = np := by
      rw [filter_sortByIndex_pinned hW hnd, ← hps, hus, hnp]
      exact map_updateF_pinnedSorted st ids bs.index hnd
    have h4 : ((sortByIndex st).filter (fun s => !(ids.contains s.id))).map
        (updateF us) = nonP := by
      have : ∀ s ∈ (sortByIndex st).filter (fun s => !(ids.contains s.id)),
          updateF us s = s := by
        intro s hs
        have hsid : s.id ∉ ids := by
          have := (List.mem_filter.mp hs).2
          simpa using this
        refine updateF_not_addressed ?_
        rw [hus, writeUpdates_map_id]
        intro hmem
        exact hsid (pinnedSorted_ids_subset s.id hmem)
      rw [List.map_congr_left this]
      simp only [List.map_id']
      rfl
    rw [h3, h4] at h2
    exact h1.trans h2
  -- distinct ordering keys on the right-hand side, transported to st'
  have hrhs_ne : (np ++ nonP).Pairwise (fun a b => a.index ≠ b.index) := by
    rw [List.pairwise_append]
    refine ⟨(reindexed_sorted_lt ps bs.index).imp (fun h => ne_of_lt h), ?_, ?_⟩
    · exact ((sortByIndex_sorted_lt (wellformed_idx_pairwise hW)).sublist
        (List.filter_sublist (sortByIndex st))).imp (fun h => ne_of_lt h)
    · intro x hx y hy
      exact ne_of_lt (lt_of_lt_of_le (hnp_lt x hx) (hnonP_ge y hy))
  have hst'_ne : st'.Pairwise (fun a b => a.index ≠ b.index) :=
    (hperm.pairwise_iff (fun h he => h he.symm)).mpr hrhs_ne
  have hlhs_sorted : List.Sorted idxLt (sortByIndex st') :=
    sortByIndex_sorted_lt hst'_ne
  exact List.eq_of_perm_of_sorted ((sortByIndex_perm st').trans hperm)
    hlhs_sorted hrhs_sorted

theorem makeSureCore_cases (st : List Shape) (ids : List ℕ) :
    makeSureCore st ids = (st, false) ∨
    ∃ b rest bs,
      (getSortedChildIds st).filter (fun i => !(ids.contains i)) = b :: rest ∧
      getShape st b = some bs ∧
      ¬ (((((getSortedChildIds st).take
            (pinnedSorted st ids).length).filterMap (getShape st))).zip
          (pinnedSorted st ids)).all (fun p => p.1.id == p.2.id) ∧
      makeSureCore st ids =
        (updateShapes st (writeUpdates (pinnedSorted st ids) bs.index), true) := by
  unfold makeSureCore
  split_ifs with h1 h2 h3 h4
  · exact Or.inl rfl
  · exact Or.inl rfl
  · exact Or.inl rfl
  · exact Or.inl rfl
  split
  · exact Or.inl rfl
  rename_i b tail heq
  split
  · exact Or.inl rfl
  rename_i bs hget
  exact Or.inr ⟨b, tail, bs, heq, hget, by simpa using h4, rfl⟩

theorem makeSureCore_snd_false {st : List Shape} {ids : List ℕ}
    (h : (makeSureCore st ids).2 = false) : makeSureCore st ids = (st, false) := by
  rcases makeSureCore_cases st ids with he | ⟨b, rest, bs, _, _, _, he⟩
  · exact he
  · rw [he] at h
    exact absurd h (by simp)

theorem nonPinnedSorted_map_id (st : List Shape) (ids : List ℕ) :
    (getSortedChildIds st).filter (fun i => !(ids.contains i)) =
      (nonPinnedSorted st ids).map Shape.id := by
  rw [getSortedChildIds, nonPinnedSorted, List.filter_map]
  rfl

theorem nonPinnedSorted_head_min {st : List Shape} {ids : List ℕ}
    (hW : Wellformed st) {b : Shape} {rest : List Shape}
    (h : nonPinnedSorted st ids = b :: rest) :
    b ∈ st ∧ b.id ∉ ids ∧ ∀ q ∈ st, q.id ∉ ids → b.index ≤ q.index := by
  have hmemb : b ∈ nonPinnedSorted st ids := by
    rw [h]
    exact List.mem_cons_self b rest
  obtain ⟨hbst, hbnp⟩ := mem_nonPinnedSorted.mp hmemb
  refine ⟨hbst, hbnp, ?_⟩
  intro q hq hqnp
  have hqmem : q ∈ nonPinnedSorted st ids := mem_nonPinnedSorted.mpr ⟨hq, hqnp⟩
  rw [h] at hqmem
  rcases List.mem_cons.mp hqmem with he | hm
  · exact le_of_eq (congrArg Shape.index he.symm)
  · have hsorted : List.Sorted idxLt (nonPinnedSorted st ids) :=
      nonPinnedSorted_sorted_lt hW
    rw [h] at hsorted
    exact le_of_lt (List.rel_of_sorted_cons hsorted q hm)

theorem makeSure_write {st : List Shape} {ids : List ℕ}
    (hW : Wellformed st) (hw : (makeSureCore st ids).2 = true) :
    ∃ bs : Shape, bs ∈ st ∧ bs.id ∉ ids ∧
      (∀ q ∈ st, q.id ∉ ids → bs.index ≤ q.index) ∧
      makeSureCore st ids =
        (updateShapes st (writeUpdates (pinnedSorted st ids) bs.index), true) := by
  rcases makeSureCore_cases st ids with he | ⟨b, rest, bs, hOS, hget, _, he⟩
  · rw [he] at hw
    exact absurd hw (by simp)
  · rw [nonPinnedSorted_map_id] at hOS
    obtain ⟨s0, srest, hnps, hs0, _⟩ : ∃ s0 srest,
        nonPinnedSorted st ids = s0 :: srest ∧ s0.id = b ∧
          srest.map Shape.id = rest := by
      cases hnp : nonPinnedSorted st ids with
      | nil => rw [hnp] at hOS; exact absurd hOS (by simp)
      | cons s0 srest =>
        rw [hnp] at hOS
        simp only [List.map_cons, List.cons.injEq] at hOS
        exact ⟨s0, srest, rfl, hOS.1, hOS.2⟩
    obtain ⟨hbst, hbnp, hmin⟩ := nonPinnedSorted_head_min hW hnps
    have hgs0 : getShape st b = some s0 :=
      hs0 ▸ getShape_eq_of_mem (wellformed_ids_pairwise hW) hbst
    have hbs : bs = s0 := by
      rw [hgs0] at hget
      exact (Option.some.injEq bs s0 ▸ hget.symm : bs = s0)
    subst hbs
    exact ⟨bs, hbst, hbnp, hmin, he⟩

theorem getShape_map {st : List Shape} {f : Shape → Shape}
    (hf : ∀ s, (f s).id = s.id) (i : ℕ) :
    getShape (st.map f) i = (getShape st i).map f := by
  rw [getShape, getShape, List.find?_map]
  have hp : ((fun s : Shape => s.id == i) ∘ f) = (fun s : Shape => s.id == i) := by
    funext s
    simp [Function.comp, hf]
  rw [hp]

theorem filterMap_getShape_map {st : List Shape} {f : Shape → Shape}
    (hf : ∀ s, (f s).id = s.id) (ids : List ℕ) :
    ids.filterMap (getShape (st.map f)) =
      (ids.filterMap (getShape st)).map f := by
  induction ids with
  | nil => rfl
  | cons i rest ih =>
    rw [List.filterMap_cons, List.filterMap_cons, getShape_map hf]
    cases getShape st i with
    | none => simpa using ih
    | some t => simpa using ih

theorem updateF_id_preserving (us : List ShapeUpdate) :
    ∀ s : Shape, (updateF us s).id = s.id :=
  fun s => updateF_id us s

theorem zip_self_all_id (l : List Shape) :
    (l.zip l).all (fun p => p.1.id == p.2.id) = true := by
  induction l with
  | nil => rfl
  | cons a rest ih => simpa using ih

theorem pairwise_ids_iff_nodup_map {st : List Shape} :
    st.Pairwise (fun a b => a.id ≠ b.id) ↔ (st.map Shape.id).Nodup := by
  rw [List.Nodup, List.pairwise_map]

theorem pinnedSorted_of_sorted {st : List Shape} {ids : List ℕ}
    (hsrc : List.Sorted idxLt (ids.filterMap (getShape st))) :
    pinnedSorted st ids = ids.filterMap (getShape st) :=
  List.Sorted.insertionSort_eq (hsrc.imp le_of_lt)

theorem pinnedSorted_map_id_of {st : List Shape} {ids : List ℕ}
    (hpres : ∀ i ∈ ids, ∃ s ∈ st, s.id = i)
    (hsrc : List.Sorted idxLt (ids.filterMap (getShape st))) :
    (pinnedSorted st ids).map Shape.id = ids := by
  rw [pinnedSorted_of_sorted hsrc]
  exact pinnedFound_map_id hpres

theorem pinnedSorted_length_le {st : List Shape} {ids : List ℕ}
    (hW : Wellformed st) (hnd : ids.Nodup) :
    (pinnedSorted st ids).length ≤ st.length :=
  ((pinnedSorted_nodup hnd).subperm
    (fun s hs => (pinnedSorted_id_mem hs).1)).length_le

theorem sortByIndex_take_collapse {st : List Shape} (hW : Wellformed st)
    (n : ℕ) :
    ((getSortedChildIds st).take n).filterMap (getShape st) =
      (sortByIndex st).take n := by
  rw [getSortedChildIds, ← List.map_take]
  refine filterMap_getShape_map_id (wellformed_ids_pairwise hW) ?_
  intro s hs
  exact sortByIndex_mem.mp (List.mem_of_mem_take hs)

theorem updateShapes_wellformed_ids {st : List Shape} {us : List ShapeUpdate}
    (hW : Wellformed st) :
    (updateShapes st us).Pairwise (fun a b => a.id ≠ b.id) := by
  rw [pairwise_ids_iff_nodup_map, updateShapes_map_id,
    ← pairwise_ids_iff_nodup_map]
  exact wellformed_ids_pairwise hW

theorem pinnedSorted_write (st : List Shape) (ids : List ℕ) (bs : Shape)
    (hnd : ids.Nodup) :
    pinnedSorted (updateShapes st (writeUpdates (pinnedSorted st ids) bs.index))
        ids =
      reindexed (pinnedSorted st ids) bs.index := by
  have hfm : ids.filterMap
      (getShape (updateShapes st (writeUpdates (pinnedSorted st ids) bs.index))) =
      (ids.filterMap (getShape st)).map
        (updateF (writeUpdates (pinnedSorted st ids) bs.index)) := by
    rw [updateShapes]
    exact filterMap_getShape_map
      (updateF_id_preserving (writeUpdates (pinnedSorted st ids) bs.index)) ids
  rw [pinnedSorted, hfm]
  have hperm : List.Perm
      ((ids.filterMap (getShape st)).map
        (updateF (writeUpdates (pinnedSorted st ids) bs.index)))
      (reindexed (pinnedSorted st ids) bs.index) := by
    have h1 : List.Perm (ids.filterMap (getShape st)) (pinnedSorted st ids) :=
      (sortByIndex_perm (ids.filterMap (getShape st))).symm
    have h2 := h1.map (updateF (writeUpdates (pinnedSorted st ids) bs.index))
    rw [map_updateF_pinnedSorted st ids bs.index hnd] at h2
    exact h2
  have hne : (reindexed (pinnedSorted st ids) bs.index).Pairwise
      (fun a b => a.index ≠ b.index) :=
    (reindexed_sorted_lt (pinnedSorted st ids) bs.index).imp (fun h => ne_of_lt h)
  have hsortedlt : List.Sorted idxLt
      (sortByIndex ((ids.filterMap (getShape st)).map
        (updateF (writeUpdates (pinnedSorted st ids) bs.index)))) := by
    refine sorted_lt_of_le (sortByIndex_sorted _) ?_
    refine ((sortByIndex_perm _).pairwise_iff (fun h he => h he.symm)).mpr ?_
    exact (hperm.pairwise_iff (fun h he => h he.symm)).mpr hne
  exact List.eq_of_perm_of_sorted ((sortByIndex_perm _).trans hperm) hsortedlt
    (reindexed_sorted_lt (pinnedSorted st ids) bs.index)

/-- C8: the z-order fixup is idempotent.  For every wellformed canvas
state and duplicate-free pinned id list, running makeSureShapesAreAtBottom
immediately after a run of makeSureShapesAreAtBottom performs no shape
update: the no-op check (or an earlier guard) returns before writing, so
repeated triggering from its own mutation reaches a fixed point. -/
theorem zorder_fixup_idempotent (st : List Shape) (ids : List ℕ)
    (hW : Wellformed st) (hnd : ids.Nodup) :
    (makeSureCore (makeSureShapesAreAtBottom st ids) ids).2 = false := by
  by_cases hw : (makeSureCore st ids).2 = true
  · obtain ⟨bs, hbmem, hbnp, hmin, he⟩ := makeSure_write hW hw
    have hst' : makeSureShapesAreAtBottom st ids =
        updateShapes st (writeUpdates (pinnedSorted st ids) bs.index) := by
      rw [makeSureShapesAreAtBottom, he]
    rw [hst']
    have hps' := pinnedSorted_write st ids bs hnd
    have hsorted' := sortByIndex_write hW hnd hmin
    by_cases hnil : reindexed (pinnedSorted st ids) bs.index = []
    · unfold makeSureCore
      rw [hps', if_pos hnil]
    · have hsib : getSortedChildIds
          (updateShapes st (writeUpdates (pinnedSorted st ids) bs.index)) =
          (reindexed (pinnedSorted st ids) bs.index).map Shape.id ++
            (nonPinnedSorted st ids).map Shape.id := by
        rw [getSortedChildIds, hsorted', List.map_append]
      have hsibne : getSortedChildIds
          (updateShapes st (writeUpdates (pinnedSorted st ids) bs.index)) ≠ [] := by
        rw [hsib]
        intro h
        rcases List.append_eq_nil.mp h with ⟨h1, _⟩
        exact hnil (List.map_eq_nil.mp h1)
      have hsubnp : ∀ x ∈ reindexed (pinnedSorted st ids) bs.index,
          x ∈ updateShapes st (writeUpdates (pinnedSorted st ids) bs.index) := by
        intro x hx
        rw [← map_updateF_pinnedSorted st ids bs.index hnd] at hx
        obtain ⟨y, hy, he⟩ := List.mem_map.mp hx
        rw [updateShapes]
        exact he ▸ List.mem_map_of_mem _ ((pinnedSorted_id_mem hy).1)
      have hcb : ((getSortedChildIds
            (updateShapes st (writeUpdates (pinnedSorted st ids) bs.index))).take
              (reindexed (pinnedSorted st ids) bs.index).length).filterMap
            (getShape
              (updateShapes st (writeUpdates (pinnedSorted st ids) bs.index))) =
          reindexed (pinnedSorted st ids) bs.index := by
        rw [hsib]
        have hlen : (reindexed (pinnedSorted st ids) bs.index).length =
            ((reindexed (pinnedSorted st ids) bs.index).map Shape.id).length := by
          simp
        rw [hlen, List.take_left]
        exact filterMap_getShape_map_id (updateShapes_wellformed_ids hW) hsubnp
      unfold makeSureCore
      rw [hps', if_neg hnil, if_neg hsibne, hcb,
        if_pos (zip_self_all_id (reindexed (pinnedSorted st ids) bs.index))]
      split_ifs <;> rfl
  · have hfalse : (makeSureCore st ids).2 = false := by
      cases h : (makeSureCore st ids).2 with
      | true => exact absurd h hw
      | false => rfl
    have := makeSureCore_snd_false hfalse
    rw [makeSureShapesAreAtBottom, this]
    exact hfalse

/-- A small concrete page: two pinned page shapes (ids 1, 2) and one
annotation shape (id 3) that sits below them, so the fixup must rewrite. -/
def demoShapes : List Shape :=
  [⟨1, "image", true, 10, 0, 0⟩, ⟨2, "image", true, 20, 0, 0⟩,
   ⟨3, "draw", false, 5, 1, 2⟩]

/-- The pinned ids of the demo page. -/
def demoIds : List ℕ := [1, 2]

theorem wellformed_demoShapes : Wellformed demoShapes :=
  (by decide :
    demoShapes.Pairwise (fun a b => a.id ≠ b.id ∧ a.index ≠ b.index))

/-- Witness for C8 at the demo page. -/
theorem zorder_fixup_idempotent_witness :
    Wellformed demoShapes ∧ demoIds.Nodup ∧
      (makeSureCore (makeSureShapesAreAtBottom demoShapes demoIds)
        demoIds).2 = false :=
  ⟨wellformed_demoShapes, by decide,
    zorder_fixup_idempotent demoShapes demoIds wellformed_demoShapes (by decide)⟩

theorem zip_all_ids_map_eq {xs ys : List Shape}
    (hlen : xs.length = ys.length)
    (hall : ((xs.zip ys).all (fun p => p.1.id == p.2.id)) = true) :
    xs.map Shape.id = ys.map Shape.id := by
  refine List.ext_getElem (by simp [hlen]) ?_
  intro k hk1 hk2
  have hkx : k < xs.length := by simpa using hk1
  have hky : k < ys.length := by simpa using hk2
  have hkz : k < (xs.zip ys).length := by
    simp [List.length_zip]
    omega
  have hmem : (xs[k], ys[k]) ∈ xs.zip ys := by
    have heq : (xs.zip ys)[k] = (xs[k], ys[k]) := List.getElem_zip
    rw [← heq]
    exact List.getElem_mem hkz
  have := List.all_eq_true.mp hall _ hmem
  simp only [List.getElem_map]
  simpa using this

theorem mem_take_of_id {st : List Shape} (hW : Wellformed st)
    {T D : List Shape} (hTD : sortByIndex st = T ++ D)
    {p : Shape} (hp : p ∈ st) (hpid : p.id ∈ T.map Shape.id) : p ∈ T := by
  have hps : p ∈ T ++ D := hTD ▸ sortByIndex_mem.mpr hp
  rcases List.mem_append.mp hps with h | h
  · exact h
  · obtain ⟨t, ht, htid⟩ := List.mem_map.mp hpid
    have htst : t ∈ st := sortByIndex_mem.mp (hTD ▸ List.mem_append_left D ht)
    by_cases hpt : t = p
    · exact hpt ▸ ht
    · exact absurd htid
        ((wellformed_ids_pairwise hW).forall id_ne_symm htst hp hpt)

theorem makeSure_noop {st : List Shape} {ids : List ℕ}
    (hW : Wellformed st) (hnd : ids.Nodup) (hne : ids ≠ [])
    (hpres : ∀ i ∈ ids, ∃ s ∈ st, s.id = i)
    (hsrc : List.Sorted idxLt (ids.filterMap (getShape st)))
    (hfalse : (makeSureCore st ids).2 = false) :
    (getSortedChildIds st).take ids.length = ids ∧
      ∀ p ∈ st, p.id ∈ ids → ∀ q ∈ st, q.id ∉ ids → p.index < q.index := by
  have hmapid : (pinnedSorted st ids).map Shape.id = ids :=
    pinnedSorted_map_id_of hpres hsrc
  have hlen : (pinnedSorted st ids).length = ids.length := by
    have := congrArg List.length hmapid
    simpa using this
  have hpsne : pinnedSorted st ids ≠ [] := by
    intro h
    rw [← hmapid, h] at hne
    exact hne rfl
  have hstne : st ≠ [] := by
    rcases ids with _ | ⟨i, rest⟩
    · exact absurd rfl hne
    · obtain ⟨s, hs, _⟩ := hpres i (List.mem_cons_self i rest)
      intro h
      rw [h] at hs
      exact absurd hs (by simp)
  have hcbc := sortByIndex_take_collapse hW (pinnedSorted st ids).length
  unfold makeSureCore at hfalse
  split_ifs at hfalse with h1 h2 h3 h4
  · exact absurd h1 hpsne
  · exfalso
    rw [getSortedChildIds] at h2
    have : sortByIndex st = [] := List.map_eq_nil.mp h2
    exact hstne (List.eq_nil_of_length_eq_zero
      ((sortByIndex_perm st).length_eq.symm.trans (by rw [this]; rfl)))
  · exfalso
    rw [hcbc] at h3
    rcases List.take_eq_nil_iff.mp h3 with h | h
    · rw [hlen] at h
      exact hne (List.eq_nil_of_length_eq_zero (by simpa using h))
    · exact hstne (List.eq_nil_of_length_eq_zero
        ((sortByIndex_perm st).length_eq.symm.trans (by rw [h]; rfl)))
  · -- the bottom-N check passed: the pinned shapes already sit at the bottom
    rw [hcbc] at h4
    have hlenst : (sortByIndex st).length = st.length :=
      (sortByIndex_perm st).length_eq
    have hTlen : ((sortByIndex st).take (pinnedSorted st ids).length).length =
        (pinnedSorted st ids).length := by
      rw [List.length_take, hlenst]
      exact Nat.min_eq_left (hlen ▸ hlen.symm ▸ pinnedSorted_length_le hW hnd)
    have hTids : ((sortByIndex st).take (pinnedSorted st ids).length).map
        Shape.id = ids :=
      (zip_all_ids_map_eq hTlen h4).trans hmapid
    constructor
    · rw [getSortedChildIds, ← List.map_take, ← hlen, hTids]
    · intro p hp hpin q hq hqnp
      have hTD := (List.take_append_drop (pinnedSorted st ids).length
        (sortByIndex st)).symm
      have hpT : p ∈ (sortByIndex st).take (pinnedSorted st ids).length :=
        mem_take_of_id hW hTD hp (by rw [hTids]; exact hpin)
      have hqD : q ∈ (sortByIndex st).drop (pinnedSorted st ids).length := by
        have hqs : q ∈ (sortByIndex st).take (pinnedSorted st ids).length ++
            (sortByIndex st).drop (pinnedSorted st ids).length :=
          hTD ▸ sortByIndex_mem.mpr hq
        rcases List.mem_append.mp hqs with h | h
        · exact absurd (by rw [← hTids]; exact List.mem_map_of_mem Shape.id h) hqnp
        · exact h
      have hsorted : List.Sorted idxLt ((sortByIndex st).take
          (pinnedSorted st ids).length ++
          (sortByIndex st).drop (pinnedSorted st ids).length) := by
        rw [← hTD]
        exact sortByIndex_sorted_lt (wellformed_idx_pairwise hW)
      rw [List.Sorted, List.pairwise_append] at hsorted
      exact hsorted.2.2 p hpT q hqD
  · -- the remaining match: no non-pinned sibling, or the write branch
    split at hfalse
    · -- otherSiblings = []: every sibling is pinned
      rename_i heq
      have hall : ∀ s ∈ st, s.id ∈ ids := by
        intro s hs
        have hmem : s.id ∈ getSortedChildIds st :=
          List.mem_map_of_mem Shape.id (sortByIndex_mem.mpr hs)
        have := List.filter_eq_nil_iff.mp heq s.id hmem
        simpa using this
      have hperm2 : List.Perm (ids.filterMap (getShape st)) st := by
        refine (List.perm_ext_iff_of_nodup ?_ (wellformed_nodup hW)).mpr ?_
        · exact (hnd.sublist (pinnedFound_map_id_sublist st ids)).of_map Shape.id
        · intro s
          constructor
          · exact fun h => (mem_pinnedFound h).1
          · exact fun h => mem_pinnedFound_of (wellformed_ids_pairwise hW) h
              (hall s h)
      have hsort_eq : sortByIndex st = ids.filterMap (getShape st) :=
        List.eq_of_perm_of_sorted ((sortByIndex_perm st).trans hperm2.symm)
          (sortByIndex_sorted_lt (wellformed_idx_pairwise hW)) hsrc
      constructor
      · rw [getSortedChildIds, hsort_eq, pinnedFound_map_id hpres,
          List.take_length]
      · intro p hp hpin q hq hqnp
        exact absurd (hall q hq) hqnp
    · rename_i b tail heq
      split at hfalse
      · -- getShape of the bottom non-pinned sibling cannot be none
        rename_i hnone
        exfalso
        rw [nonPinnedSorted_map_id] at heq
        cases hnp : nonPinnedSorted st ids with
        | nil =>
          rw [hnp] at heq
          exact absurd heq (by simp)
        | cons s0 srest =>
          rw [hnp] at heq
          simp only [List.map_cons, List.cons.injEq] at heq
          have hs0 : s0 ∈ st := (mem_nonPinnedSorted.mp
            (by rw [hnp]; exact List.mem_cons_self s0 srest)).1
          have := getShape_eq_of_mem (wellformed_ids_pairwise hW) hs0
          rw [heq.1] at this
          rw [this] at hnone
          exact absurd hnone (by simp)
      · exact absurd hfalse (by simp)

/-- C2: for every wellformed canvas state and non-empty duplicate-free set
of pinned page shapes, all present and currently in source order (any
sequence of creations/deletions among non-pinned siblings preserves
these facts), one invocation of makeSureShapesAreAtBottom leaves the
pinned shapes occupying the bottom-N positions of the sibling ordering,
contiguously and in source order, with every pinned shape strictly below
every non-pinned (annotation) shape. -/
theorem zorder_fixup_bottom (st : List Shape) (ids : List ℕ)
    (hW : Wellformed st) (hnd : ids.Nodup) (hne : ids ≠ [])
    (hpres : ∀ i ∈ ids, ∃ s ∈ st, s.id = i)
    (hsrc : List.Sorted idxLt (ids.filterMap (getShape st))) :
    (getSortedChildIds (makeSureShapesAreAtBottom st ids)).take ids.length =
        ids ∧
      ∀ p ∈ makeSureShapesAreAtBottom st ids, p.id ∈ ids →
        ∀ q ∈ makeSureShapesAreAtBottom st ids, q.id ∉ ids →
          p.index < q.index := by
  by_cases hw : (makeSureCore st ids).2 = true
  · obtain ⟨bs, hbmem, hbnp, hmin, he⟩ := makeSure_write hW hw
    have hst' : makeSureShapesAreAtBottom st ids =
        updateShapes st (writeUpdates (pinnedSorted st ids) bs.index) := by
      rw [makeSureShapesAreAtBottom, he]
    rw [hst']
    have hsorted' := sortByIndex_write hW hnd hmin
    have hmapid : (pinnedSorted st ids).map Shape.id = ids :=
      pinnedSorted_map_id_of hpres hsrc
    have hnpids : (reindexed (pinnedSorted st ids) bs.index).map Shape.id =
        ids := (reindexed_map_id (pinnedSorted st ids) bs.index).trans hmapid
    constructor
    · rw [getSortedChildIds, hsorted', List.map_append]
      have hl : ids.length =
          ((reindexed (pinnedSorted st ids) bs.index).map Shape.id).length := by
        rw [hnpids]
      rw [hl, List.take_left, hnpids]
    · intro p hp hpin q hq hqnp
      have hp2 : p ∈ reindexed (pinnedSorted st ids) bs.index ++
          nonPinnedSorted st ids := by
        rw [← hsorted']
        exact sortByIndex_mem.mpr hp
      have hq2 : q ∈ reindexed (pinnedSorted st ids) bs.index ++
          nonPinnedSorted st ids := by
        rw [← hsorted']
        exact sortByIndex_mem.mpr hq
      have hpnp : p ∈ reindexed (pinnedSorted st ids) bs.index := by
        rcases List.mem_append.mp hp2 with h | h
        · exact h
        · exact absurd (mem_nonPinnedSorted.mp h).2 (not_not.mpr hpin)
      have hqnonp : q ∈ nonPinnedSorted st ids := by
        rcases List.mem_append.mp hq2 with h | h
        · exact absurd (hnpids ▸ List.mem_map_of_mem Shape.id h) hqnp
        · exact h
      have hq3 := mem_nonPinnedSorted.mp hqnonp
      exact lt_of_lt_of_le
        (reindexed_index_lt (pinnedSorted st ids) bs.index p hpnp)
        (hmin q hq3.1 hq3.2)
  · have hfalse : (makeSureCore st ids).2 = false := by
      cases h : (makeSureCore st ids).2 with
      | true => exact absurd h hw
      | false => rfl
    have heq := makeSureCore_snd_false hfalse
    have hst' : makeSureShapesAreAtBottom st ids = st := by
      rw [makeSureShapesAreAtBottom, heq]
    rw [hst']
    exact makeSure_noop hW hnd hne hpres hsrc hfalse

/-- Witness for C2 at the demo page (the fixup must move the pinned
shapes below the annotation shape with the lowest key). -/
theorem zorder_fixup_bottom_witness :
    Wellformed demoShapes ∧ demoIds.Nodup ∧ demoIds ≠ [] ∧
      (∀ i ∈ demoIds, ∃ s ∈ demoShapes, s.id = i) ∧
      List.Sorted idxLt (demoIds.filterMap (getShape demoShapes)) ∧
      ((getSortedChildIds (makeSureShapesAreAtBottom demoShapes demoIds)).take
          demoIds.length = demoIds ∧
        ∀ p ∈ makeSureShapesAreAtBottom demoShapes demoIds, p.id ∈ demoIds →
          ∀ q ∈ makeSureShapesAreAtBottom demoShapes demoIds,
            q.id ∉ demoIds → p.index < q.index) :=
  ⟨wellformed_demoShapes, by decide, by decide, by decide, by decide,
    zorder_fixup_bottom demoShapes demoIds wellformed_demoShapes (by decide)
      (by decide) (by decide) (by decide)⟩

/-- C10: when the z-order fixup rewrites, the batch update changes only
each pinned shape's ordering key: id, type, isLocked, x and y are
unchanged on every shape, and every non-pinned shape is left exactly as
it was (element-for-element, the new state relates to the old one). -/
theorem zorder_fixup_frame (st : List Shape) (ids : List ℕ)
    (hW : Wellformed st) (hnd : ids.Nodup)
    (hw : (makeSureCore st ids).2 = true) :
    List.Forall₂ (fun s s' : Shape => s'.id = s.id ∧ s'.type = s.type ∧
        s'.isLocked = s.isLocked ∧ s'.x = s.x ∧ s'.y = s.y ∧
        (s.id ∉ ids → s' = s))
      st (makeSureShapesAreAtBottom st ids) := by
  obtain ⟨bs, hbmem, hbnp, hmin, he⟩ := makeSure_write hW hw
  rw [makeSureShapesAreAtBottom, he]
  show List.Forall₂ _ st ((updateShapes st
    (writeUpdates (pinnedSorted st ids) bs.index)))
  rw [updateShapes]
  refine List.forall₂_map_right_iff.mpr (List.forall₂_same.mpr ?_)
  intro s hs
  by_cases hsid : s.id ∈ ids
  · have hmemps : s ∈ pinnedSorted st ids :=
      mem_pinnedSorted.mpr (mem_pinnedFound_of (wellformed_ids_pairwise hW) hs hsid)
    obtain ⟨k, hk, hks⟩ := List.mem_iff_getElem.mp hmemps
    have hmap := map_updateF_pinnedSorted st ids bs.index hnd
    have hkm : k < ((pinnedSorted st ids).map
        (updateF (writeUpdates (pinnedSorted st ids) bs.index))).length := by
      simpa using hk
    have hkr : k < (reindexed (pinnedSorted st ids) bs.index).length := by
      rw [reindexed_length]; exact hk
    have h1 : updateF (writeUpdates (pinnedSorted st ids) bs.index) s =
        ((pinnedSorted st ids).map
          (updateF (writeUpdates (pinnedSorted st ids) bs.index)))[k] := by
      rw [List.getElem_map, hks]
    have h2 : updateF (writeUpdates (pinnedSorted st ids) bs.index) s =
        { s with index := bs.index - (pinnedSorted st ids).length + k } := by
      rw [h1]
      have h3 : (((pinnedSorted st ids).map
          (updateF (writeUpdates (pinnedSorted st ids) bs.index)))[k]) =
          (reindexed (pinnedSorted st ids) bs.index)[k] := by
        congr 1
      rw [h3, reindexed_getElem _ bs.index k hk hkr, hks]
    rw [h2]
    exact ⟨rfl, rfl, rfl, rfl, rfl, fun hn => absurd hsid hn⟩
  · have hfs : updateF (writeUpdates (pinnedSorted st ids) bs.index) s = s := by
      refine updateF_not_addressed ?_
      rw [writeUpdates_map_id]
      intro hmem
      exact hsid (pinnedSorted_ids_subset s.id hmem)
    rw [hfs]
    exact ⟨rfl, rfl, rfl, rfl, rfl, fun _ => rfl⟩

/-- Witness for C10 at the demo page, where the fixup does rewrite. -/
theorem zorder_fixup_frame_witness :
    Wellformed demoShapes ∧ demoIds.Nodup ∧
      (makeSureCore demoShapes demoIds).2 = true ∧
      List.Forall₂ (fun s s' : Shape => s'.id = s.id ∧ s'.type = s.type ∧
          s'.isLocked = s.isLocked ∧ s'.x = s.x ∧ s'.y = s.y ∧
          (s.id ∉ demoIds → s' = s))
        demoShapes (makeSureShapesAreAtBottom demoShapes demoIds) :=
  ⟨wellformed_demoShapes, by decide, by decide,
    zorder_fixup_frame demoShapes demoIds wellformed_demoShapes (by decide)
      (by decide)⟩

/-! ## The before-change lock guard (src/src/PdfEditor.tsx lines 314-318) -/

/-- registerBeforeChangeHandler handler: a change to a non-pinned shape
passes through; a change keeping a pinned shape locked passes through; an
attempted unlock of a pinned shape returns the previous record with
isLocked forced back to true. -/
def beforeChangeGuard (ids : List ℕ) (prev next : Shape) : Shape :=
  if ¬ ids.contains next.id then next
  else if next.isLocked then next
  else { prev with isLocked := true }

/-- One guarded shape change: the attempted record next replaces the
record with its id, after passing through beforeChangeGuard. -/
inductive GuardedStep (ids : List ℕ) : List Shape → List Shape → Prop
  | change (st : List Shape) (next : Shape) :
      GuardedStep ids st (st.map (fun s =>
        if s.id = next.id then beforeChangeGuard ids s next else s))

theorem beforeChangeGuard_locked {ids : List ℕ} (prev next : Shape)
    (h : next.id ∈ ids) :
    (beforeChangeGuard ids prev next).isLocked = true := by
  rw [beforeChangeGuard]
  have hc : ids.contains next.id = true := by simpa using h
  rw [if_neg (not_not_intro hc)]
  by_cases hl : next.isLocked
  · rw [if_pos hl]
    exact hl
  · rw [if_neg hl]

theorem beforeChangeGuard_id {ids : List ℕ} (prev next : Shape)
    (hid : prev.id = next.id) :
    (beforeChangeGuard ids prev next).id = next.id := by
  rw [beforeChangeGuard]
  split_ifs <;> simp [hid]

/-- C9: the pinned-shape lock guard.  Changes to non-pinned shapes pass
through unmodified, changes keeping a pinned shape locked pass through
unmodified, an attempted unlock of a pinned shape yields the previous
record with isLocked forced back to true, and consequently in every state
reachable through guarded changes from a state whose pinned shapes are
locked, every pinned shape is still locked. -/
theorem pinned_lock_guard (ids : List ℕ) :
    (∀ prev next : Shape, next.id ∉ ids →
        beforeChangeGuard ids prev next = next) ∧
      (∀ prev next : Shape, next.id ∈ ids → next.isLocked = true →
        beforeChangeGuard ids prev next = next) ∧
      (∀ prev next : Shape, next.id ∈ ids → next.isLocked = false →
        beforeChangeGuard ids prev next = { prev with isLocked := true }) ∧
      (∀ s0 s1 : List Shape, (∀ s ∈ s0, s.id ∈ ids → s.isLocked = true) →
        Relation.ReflTransGen (GuardedStep ids) s0 s1 →
        ∀ s ∈ s1, s.id ∈ ids → s.isLocked = true) := by
  refine ⟨?_, ?_, ?_, ?_⟩
  · intro prev next h
    rw [beforeChangeGuard, if_pos (by simpa using h)]
  · intro prev next h hl
    rw [beforeChangeGuard, if_neg (by simpa using not_not_intro h), if_pos hl]
  · intro prev next h hl
    rw [beforeChangeGuard, if_neg (by simpa using not_not_intro h),
      if_neg (by simp [hl])]
  · intro s0 s1 hinv hreach
    induction hreach with
    | refl => exact hinv
    | tail hR hstep ih =>
      cases hstep with
      | change next =>
        intro s hs hsid
        obtain ⟨t, ht, hts⟩ := List.mem_map.mp hs
        by_cases hid : t.id = next.id
        · rw [if_pos hid] at hts
          have hnid : next.id ∈ ids := by
            have hgid : (beforeChangeGuard ids t next).id = next.id :=
              beforeChangeGuard_id t next hid
            rw [hts] at hgid
            exact hgid ▸ hsid
          rw [← hts]
          exact beforeChangeGuard_locked t next hnid
        · rw [if_neg hid] at hts
          exact hts ▸ ih t ht (hts ▸ hsid)

/-- The unlock attempt of the C9 witness: pinned shape 1 with isLocked
cleared. -/
def unlockAttempt : Shape := ⟨1, "image", false, 10, 0, 0⟩

/-- Witness for C9: on the demo page, one guarded step attempting to
unlock pinned shape 1 leaves every pinned shape locked. -/
theorem pinned_lock_guard_witness :
    (∀ s ∈ demoShapes, s.id ∈ demoIds → s.isLocked = true) ∧
      Relation.ReflTransGen (GuardedStep demoIds) demoShapes
        (demoShapes.map (fun s =>
          if s.id = unlockAttempt.id
          then beforeChangeGuard demoIds s unlockAttempt else s)) ∧
      ∀ s ∈ demoShapes.map (fun s =>
          if s.id = unlockAttempt.id
          then beforeChangeGuard demoIds s unlockAttempt else s),
        s.id ∈ demoIds → s.isLocked = true := by
  refine ⟨by decide, Relation.ReflTransGen.single
    (GuardedStep.change demoShapes unlockAttempt), ?_⟩
  exact (pinned_lock_guard demoIds).2.2.2 demoShapes _ (by decide)
    (Relation.ReflTransGen.single (GuardedStep.change demoShapes unlockAttempt))

/-! ## AutosaveScheduler (src/unnamed/part_000, first PdfEditor variant)

The scheduler's state is the countdown React state: none is idle; some n
is a running countdown (the auto-save effect fires when it reaches 0).
The store listener (lines 223-244), the countdown interval tick (lines
91-106) and the auto-save effect (lines 67-88) are each embedded as a
step function on that state. -/

/-- The origin tag of a store update (update.source). -/
inductive ChangeSource where
  | user
  | remote
  deriving DecidableEq, Repr

/-- The store.listen callback of lines 223-244: skips non-user sources and
updates before the initial load completes, skips updates with no changes,
and otherwise arms the countdown at 10 only when it is idle — when a
countdown is already in progress the callback keeps the previous value
(the source logs: Change detected but countdown already in progress). -/
def storeListenStep (source : ChangeSource) (initialLoad : Bool)
    (hasChanges : Bool) (countdown : Option ℕ) : Option ℕ :=
  if source ≠ ChangeSource.user ∨ ¬ initialLoad then countdown
  else if ¬ hasChanges then countdown
  else
    match countdown with
    | none => some 10
    | some n => some n

/-- The countdown interval tick of lines 91-106 (the effect only installs
the interval when countdown is non-null; the callback clamps null and
non-positive values to 0 and otherwise decrements). -/
def countdownTick (countdown : Option ℕ) : Option ℕ :=
  match countdown with
  | none => none
  | some n => if n ≤ 0 then some 0 else some (n - 1)

/-- The auto-save effect of lines 67-88, with its save call modelled by
the outcome saveOk.  Returns the new countdown state and whether a save
attempt was made.  The effect returns without saving when there is no
path, no stored save callback, or the initial load has not completed; it
saves only when the countdown reached 0, clearing the countdown on
success and re-arming a fresh 10-second countdown on failure. -/
def autoSaveEffect (hasPath hasSaveRef initialLoad : Bool)
    (countdown : Option ℕ) (saveOk : Bool) : Option ℕ × Bool :=
  if ¬ hasPath ∨ ¬ hasSaveRef ∨ ¬ initialLoad then (countdown, false)
  else if countdown = some 0 then
    (if saveOk then none else some 10, true)
  else (countdown, false)

/-- Counterexample for C3: at CountingDown(5), a qualifying user mutation
(user source, after initial load, with changes) leaves the countdown at 5
— it is not reset to 10 as the claim states. -/
theorem autosave_no_reset_counterexample :
    storeListenStep ChangeSource.user true true (some 5) = some 5 ∧
      storeListenStep ChangeSource.user true true (some 5) ≠ some 10 := by
  constructor
  · rfl
  · decide

/-- C3 amended: a qualifying user mutation arriving while the scheduler is
in CountingDown(n) with 0 < n ≤ 10 leaves the state at CountingDown(n);
only from Idle does a mutation arm CountingDown(10).  The running
countdown is never extended, so the single save fires 10 seconds after
the first qualifying edit of a burst, not the last. -/
theorem autosave_burst_keeps_countdown (n : ℕ) (h0 : 0 < n) (h10 : n ≤ 10) :
    storeListenStep ChangeSource.user true true (some n) = some n ∧
      storeListenStep ChangeSource.user true true none = some 10 := by
  constructor
  · rfl
  · rfl

/-- Witness for the amended C3 at n = 5. -/
theorem autosave_burst_keeps_countdown_witness :
    0 < 5 ∧ 5 ≤ 10 ∧
      (storeListenStep ChangeSource.user true true (some 5) = some 5 ∧
        storeListenStep ChangeSource.user true true none = some 10) :=
  ⟨by decide, by decide, autosave_burst_keeps_countdown 5 (by decide) (by decide)⟩

/-- C4: when the countdown has reached 0 and the save attempt fails, the
auto-save effect re-arms a fresh 10-second countdown (with a save attempt
made), and never returns to Idle. -/
theorem autosave_retry_on_failure (hasPath hasSaveRef initialLoad : Bool)
    (hp : hasPath = true) (hs : hasSaveRef = true) (hi : initialLoad = true) :
    autoSaveEffect hasPath hasSaveRef initialLoad (some 0) false =
        (some 10, true) ∧
      (autoSaveEffect hasPath hasSaveRef initialLoad (some 0) false).1 ≠
        none := by
  subst hp hs hi
  constructor
  · rfl
  · decide

/-- Witness for C4. -/
theorem autosave_retry_on_failure_witness :
    true = true ∧
      (autoSaveEffect true true true (some 0) false = (some 10, true) ∧
        (autoSaveEffect true true true (some 0) false).1 ≠ none) :=
  ⟨rfl, autosave_retry_on_failure true true true rfl rfl rfl⟩

/-- Counterexample for C5: in a session without a save destination, a
qualifying user mutation from Idle still arms the countdown at 10 — the
listener never consults the path, so the state does not stay Idle as the
claim states. -/
theorem autosave_no_path_arms_counterexample :
    storeListenStep ChangeSource.user true true none = some 10 ∧
      storeListenStep ChangeSource.user true true none ≠ none := by
  constructor
  · rfl
  · decide

/-- C5 amended: without a save destination the countdown is still armed by
qualifying mutations (the listener does not consult the path), but no
save attempt ever occurs: for every countdown state the auto-save effect
with hasPath = false leaves the countdown unchanged and attempts no
save. -/
theorem autosave_no_path_no_save (c : Option ℕ) (saveOk : Bool)
    (hasSaveRef initialLoad : Bool) :
    autoSaveEffect false hasSaveRef initialLoad c saveOk = (c, false) ∧
      storeListenStep ChangeSource.user true true none = some 10 := by
  constructor
  · rw [autoSaveEffect, if_pos]
    simp
  · rfl

/-! ## SnapshotCodec: base64 (window.btoa / window.atob)

btoa and atob are modelled over lists of characters (JS strings).  btoa
rejects any character above U+00FF (InvalidCharacterError); atob decodes
the forgiving-base64 grammar used by the code paths here: full quads,
a final quad with = padding, and a final group of 2 or 3 characters. -/

/-- The base64 value of one alphabet character. -/
def b64Index (c : Char) : Option ℕ :=
  if 65 ≤ c.toNat ∧ c.toNat ≤ 90 then some (c.toNat - 65)
  else if 97 ≤ c.toNat ∧ c.toNat ≤ 122 then some (c.toNat - 97 + 26)
  else if 48 ≤ c.toNat ∧ c.toNat ≤ 57 then some (c.toNat - 48 + 52)
  else if c = '+' then some 62
  else if c = '/' then some 63
  else none

/-- The alphabet character of a 6-bit value. -/
def b64Char (n : ℕ) : Char :=
  if n < 26 then Char.ofNat (65 + n)
  else if n < 52 then Char.ofNat (97 + (n - 26))
  else if n < 62 then Char.ofNat (48 + (n - 52))
  else if n = 62 then '+'
  else '/'

theorem b64Index_b64Char : ∀ n, n < 64 → b64Index (b64Char n) = some n := by
  decide

theorem b64Char_ne_pad : ∀ n, n < 64 → b64Char n ≠ '=' := by
  decide

/-- Base64 encoding of a byte list, three bytes to four characters, with
= padding on a short final group. -/
def btoaChunks : List ℕ → List Char
  | [] => []
  | [a] => [b64Char (a / 4), b64Char (a % 4 * 16), '=', '=']
  | [a, b] => [b64Char (a / 4), b64Char (a % 4 * 16 + b / 16),
      b64Char (b % 16 * 4), '=']
  | a :: b :: c :: rest =>
      b64Char (a / 4) :: b64Char (a % 4 * 16 + b / 16) ::
        b64Char (b % 16 * 4 + c / 64) :: b64Char (c % 64) :: btoaChunks rest

/-- window.btoa: fails when any character is above U+00FF, otherwise
encodes the character codes. -/
def btoa (s : List Char) : Except Unit (List Char) :=
  if s.all (fun c => c.toNat ≤ 255) then
    Except.ok (btoaChunks (s.map Char.toNat))
  else Except.error ()

/-- Decode one final two-character group (one byte). -/
def b64DecTwo (a b : Char) : Option (List ℕ) := do
  let x ← b64Index a
  let y ← b64Index b
  some [x * 4 + y / 16]

/-- Decode one final three-character group (two bytes). -/
def b64DecThree (a b c : Char) : Option (List ℕ) := do
  let x ← b64Index a
  let y ← b64Index b
  let z ← b64Index c
  some [x * 4 + y / 16, y % 16 * 16 + z / 4]

/-- Decode one full quad onto an already-decoded tail. -/
def b64DecQuad (a b c d : Char) (tl : Option (List ℕ)) : Option (List ℕ) := do
  let x ← b64Index a
  let y ← b64Index b
  let z ← b64Index c
  let w ← b64Index d
  let t ← tl
  some ((x * 4 + y / 16) :: (y % 16 * 16 + z / 4) :: (z % 4 * 64 + w) :: t)

/-- Base64 decoding: quads, then a final group of 2, 3 or 4 characters,
where a final quad may carry = padding. -/
def atobChunks : List Char → Option (List ℕ)
  | [] => some []
  | [a, b] => b64DecTwo a b
  | [a, b, c] => b64DecThree a b c
  | [a, b, c, d] =>
      if c = '=' ∧ d = '=' then b64DecTwo a b
      else if d = '=' then b64DecThree a b c
      else b64DecQuad a b c d (some [])
  | a :: b :: c :: d :: e :: rest => b64DecQuad a b c d (atobChunks (e :: rest))
  | _ => none

/-- window.atob on the character list, back to the byte string as a
character list. -/
def atob (s : List Char) : Option (List Char) :=
  (atobChunks s).map (fun bytes => bytes.map (fun n => Char.ofNat n))

theorem btoaChunks_cons_ne_nil (x : ℕ) (xs : List ℕ) :
    btoaChunks (x :: xs) ≠ [] := by
  rcases xs with _ | ⟨y, _ | ⟨z, r⟩⟩ <;> simp [btoaChunks]

theorem atobChunks_btoaChunks :
    ∀ bytes : List ℕ, (∀ b ∈ bytes, b < 256) →
      atobChunks (btoaChunks bytes) = some bytes := by
  intro bytes
  induction bytes using btoaChunks.induct with
  | case1 => intro _; rfl
  | case2 a =>
    intro h
    have ha : a < 256 := h a (by simp)
    have h1 : a / 4 < 64 := by omega
    have h2 : a % 4 * 16 < 64 := by omega
    have e0 : a / 4 * 4 + a % 4 * 16 / 16 = a := by omega
    simp [btoaChunks, atobChunks, b64DecTwo, b64Index_b64Char _ h1,
      b64Index_b64Char _ h2, e0]
    try omega
  | case3 a b =>
    intro h
    have ha : a < 256 := h a (by simp)
    have hb : b < 256 := h b (by simp)
    have h1 : a / 4 < 64 := by omega
    have h2 : a % 4 * 16 + b / 16 < 64 := by omega
    have h3 : b % 16 * 4 < 64 := by omega
    have e1 : a / 4 * 4 + (a % 4 * 16 + b / 16) / 16 = a := by omega
    have e2 : (a % 4 * 16 + b / 16) % 16 * 16 + b % 16 * 4 / 4 = b := by omega
    simp [btoaChunks, atobChunks, b64DecThree, b64Index_b64Char _ h1,
      b64Index_b64Char _ h2, b64Index_b64Char _ h3, b64Char_ne_pad _ h3,
      e1, e2]
    try omega
  | case4 a b c rest ih =>
    intro h
    have ha : a < 256 := h a (by simp)
    have hb : b < 256 := h b (by simp)
    have hc : c < 256 := h c (by simp)
    have hrest : ∀ x ∈ rest, x < 256 := by
      intro x hx
      exact h x (by simp [hx])
    have h1 : a / 4 < 64 := by omega
    have h2 : a % 4 * 16 + b / 16 < 64 := by omega
    have h3 : b % 16 * 4 + c / 64 < 64 := by omega
    have h4 : c % 64 < 64 := by omega
    have e1 : a / 4 * 4 + (a % 4 * 16 + b / 16) / 16 = a := by omega
    have e2 : (a % 4 * 16 + b / 16) % 16 * 16 + (b % 16 * 4 + c / 64) / 4 =
        b := by omega
    have e3 : (b % 16 * 4 + c / 64) % 4 * 64 + c % 64 = c := by omega
    rcases rest with _ | ⟨d, rest2⟩
    · simp [btoaChunks, atobChunks, b64DecQuad, b64Index_b64Char _ h1,
        b64Index_b64Char _ h2, b64Index_b64Char _ h3, b64Index_b64Char _ h4,
        b64Char_ne_pad _ h3, b64Char_ne_pad _ h4, e1, e2, e3]
      try omega
    · obtain ⟨hd, tl, heq⟩ : ∃ hd tl, btoaChunks (d :: rest2) = hd :: tl := by
        cases hbt : btoaChunks (d :: rest2) with
        | nil => exact absurd hbt (btoaChunks_cons_ne_nil d rest2)
        | cons hd tl => exact ⟨hd, tl, rfl⟩
      have hih : atobChunks (hd :: tl) = some (d :: rest2) := by
        rw [← heq]
        exact ih hrest
      show atobChunks (b64Char (a / 4) :: b64Char (a % 4 * 16 + b / 16) ::
        b64Char (b % 16 * 4 + c / 64) :: b64Char (c % 64) ::
        btoaChunks (d :: rest2)) = _
      rw [heq]
      show b64DecQuad _ _ _ _ (atobChunks (hd :: tl)) = _
      rw [hih]
      simp [b64DecQuad, b64Index_b64Char _ h1, b64Index_b64Char _ h2,
        b64Index_b64Char _ h3, b64Index_b64Char _ h4, e1, e2, e3]
      try constructor <;> omega

/-! ## SnapshotCodec: JSON (JSON.stringify / JSON.parse)

JSON values with integer numbers (the snapshot is opaque to the codec;
the claims concern the serialization round trip).  The parser below
covers the whitespace-free grammar, which is exactly what stringify
emits. -/

/-- A JSON value.  Numbers are modelled as integers. -/
inductive Json where
  | null
  | bool (b : Bool)
  | num (n : ℤ)
  | str (s : List Char)
  | arr (xs : List Json)
  | obj (fields : List (List Char × Json))

/-- One lowercase hex digit. -/
def hexDigit (n : ℕ) : Char :=
  if n < 10 then Char.ofNat (48 + n) else Char.ofNat (87 + n)

/-- JSON.stringify's escaping of one string character. -/
def escapeChar (c : Char) : List Char :=
  if c = '"' then ['\\', '"']
  else if c = '\\' then ['\\', '\\']
  else if c = '\x08' then ['\\', 'b']
  else if c = '\t' then ['\\', 't']
  else if c = '\n' then ['\\', 'n']
  else if c = '\x0c' then ['\\', 'f']
  else if c = '\r' then ['\\', 'r']
  else if c.toNat < 32 then
    ['\\', 'u', '0', '0', hexDigit (c.toNat / 16), hexDigit (c.toNat % 16)]
  else [c]

/-- Escape a whole string body. -/
def escapeString : List Char → List Char
  | [] => []
  | c :: rest => escapeChar c ++ escapeString rest

/-- A quoted, escaped JSON string literal. -/
def quoteString (s : List Char) : List Char :=
  '"' :: (escapeString s ++ ['"'])

/-- Decimal digits of a natural number. -/
def natDigits (n : ℕ) : List Char :=
  if _h : n < 10 then [Char.ofNat (48 + n)]
  else natDigits (n / 10) ++ [Char.ofNat (48 + n % 10)]
  termination_by n
  decreasing_by exact Nat.div_lt_self (by omega) (by omega)

/-- Decimal notation of an integer. -/
def intChars (n : ℤ) : List Char :=
  if n < 0 then '-' :: natDigits n.natAbs else natDigits n.toNat

mutual

/-- JSON.stringify on a value (whitespace-free, as in JavaScript). -/
def stringifyJson : Json → List Char
  | Json.null => ['n', 'u', 'l', 'l']
  | Json.bool true => ['t', 'r', 'u', 'e']
  | Json.bool false => ['f', 'a', 'l', 's', 'e']
  | Json.num n => intChars n
  | Json.str s => quoteString s
  | Json.arr [] => ['[', ']']
  | Json.arr (x :: xs) => '[' :: (stringifyJson x ++ stringifyArrRest xs)
  | Json.obj [] => ['\x7b', '\x7d']
  | Json.obj (f :: fs) =>
      '\x7b' :: (quoteString f.1 ++ ':' :: stringifyJson f.2 ++
        stringifyObjRest fs)

/-- The remaining elements of an array, each preceded by a comma, then
the closing bracket. -/
def stringifyArrRest : List Json → List Char
  | [] => [']']
  | x :: xs => ',' :: (stringifyJson x ++ stringifyArrRest xs)

/-- The remaining members of an object, each preceded by a comma, then
the closing brace. -/
def stringifyObjRest : List (List Char × Json) → List Char
  | [] => ['\x7d']
  | f :: fs => ',' :: (quoteString f.1 ++ ':' :: stringifyJson f.2 ++
      stringifyObjRest fs)

end

/-- A parse failure: malformed input, or fuel exhausted on nesting deeper
than the input length bound (never reached on real input). -/
inductive PErr where
  | fuel
  | unexpected
  deriving DecidableEq, Repr

/-- Is the character an ASCII digit. -/
def isDigitChar (c : Char) : Bool := 48 ≤ c.toNat && c.toNat ≤ 57

/-- Split the longest digit run off the front, as digit values. -/
def takeDigits : List Char → List ℕ × List Char
  | [] => ([], [])
  | c :: rest =>
      if isDigitChar c then
        ((c.toNat - 48) :: (takeDigits rest).1, (takeDigits rest).2)
      else ([], c :: rest)

/-- The numeric value of a digit-value run. -/
def digitsVal (ds : List ℕ) : ℕ := ds.foldl (fun a d => a * 10 + d) 0

/-- The value of one hex digit. -/
def hexVal (c : Char) : Option ℕ :=
  if 48 ≤ c.toNat ∧ c.toNat ≤ 57 then some (c.toNat - 48)
  else if 97 ≤ c.toNat ∧ c.toNat ≤ 102 then some (c.toNat - 87)
  else if 65 ≤ c.toNat ∧ c.toNat ≤ 70 then some (c.toNat - 55)
  else none

mutual

/-- Parse a JSON string body up to the closing quote (the opening quote
already consumed), returning the unescaped contents and the remainder. -/
def parseStringBody : List Char → Except PErr (List Char × List Char)
  | [] => .error .unexpected
  | c :: rest =>
      if c = '"' then .ok ([], rest)
      else if c = '\\' then parseEscape rest
      else if c.toNat < 32 then .error .unexpected
      else (parseStringBody rest).map (fun p => (c :: p.1, p.2))

/-- Parse one escape sequence (the backslash already consumed). -/
def parseEscape : List Char → Except PErr (List Char × List Char)
  | [] => .error .unexpected
  | e :: rest =>
      if e = '"' then (parseStringBody rest).map (fun p => ('"' :: p.1, p.2))
      else if e = '\\' then
        (parseStringBody rest).map (fun p => ('\\' :: p.1, p.2))
      else if e = '/' then (parseStringBody rest).map (fun p => ('/' :: p.1, p.2))
      else if e = 'b' then
        (parseStringBody rest).map (fun p => ('\x08' :: p.1, p.2))
      else if e = 't' then
        (parseStringBody rest).map (fun p => ('\t' :: p.1, p.2))
      else if e = 'n' then
        (parseStringBody rest).map (fun p => ('\n' :: p.1, p.2))
      else if e = 'f' then
        (parseStringBody rest).map (fun p => ('\x0c' :: p.1, p.2))
      else if e = 'r' then
        (parseStringBody rest).map (fun p => ('\r' :: p.1, p.2))
      else if e = 'u' then
        match rest with
        | h1 :: h2 :: h3 :: h4 :: rest2 =>
            match hexVal h1, hexVal h2, hexVal h3, hexVal h4 with
            | some a, some b, some c, some d =>
                (parseStringBody rest2).map
                  (fun p => (Char.ofNat (((a * 16 + b) * 16 + c) * 16 + d) ::
                    p.1, p.2))
            | _, _, _, _ => .error .unexpected
        | _ => .error .unexpected
      else .error .unexpected

end

mutual

/-- Fuel-indexed parser for one JSON value at the front of the input.
Every recursive call strictly decreases fuel; the top level supplies fuel
larger than the input could ever need . -/
def parseVal : ℕ → List Char → Except PErr (Json × List Char)
  | 0, _ => .error .fuel
  | _ + 1, [] => .error .unexpected
  | f + 1, c :: rest =>
      if c = 'n' then
        match rest with
        | 'u' :: 'l' :: 'l' :: r => .ok (.null, r)
        | _ => .error .unexpected
      else if c = 't' then
        match rest with
        | 'r' :: 'u' :: 'e' :: r => .ok (.bool true, r)
        | _ => .error .unexpected
      else if c = 'f' then
        match rest with
        | 'a' :: 'l' :: 's' :: 'e' :: r => .ok (.bool false, r)
        | _ => .error .unexpected
      else if c = '"' then
        (parseStringBody rest).map (fun p => (.str p.1, p.2))
      else if c = '[' then parseArrStart f rest
      else if c = '\x7b' then parseObjStart f rest
      else if c = '-' then
        match takeDigits rest with
        | ([], _) => .error .unexpected
        | (ds, r2) => .ok (.num (-(digitsVal ds : ℤ)), r2)
      else if isDigitChar c then
        .ok (.num (digitsVal (takeDigits (c :: rest)).1),
          (takeDigits (c :: rest)).2)
      else .error .unexpected

/-- After the opening bracket: an empty array, or the first element then
the comma-separated rest. -/
def parseArrStart : ℕ → List Char → Except PErr (Json × List Char)
  | 0, _ => .error .fuel
  | _ + 1, [] => .error .unexpected
  | f + 1, c :: rest =>
      if c = ']' then .ok (.arr [], rest)
      else do
        let p ← parseVal f (c :: rest)
        let q ← parseArrRest f p.2
        .ok (.arr (p.1 :: q.1), q.2)

/-- After one array element: the closing bracket, or a comma and the next
element. -/
def parseArrRest : ℕ → List Char → Except PErr (List Json × List Char)
  | 0, _ => .error .fuel
  | _ + 1, [] => .error .unexpected
  | f + 1, c :: rest =>
      if c = ']' then .ok ([], rest)
      else if c = ',' then do
        let p ← parseVal f rest
        let q ← parseArrRest f p.2
        .ok (p.1 :: q.1, q.2)
      else .error .unexpected

/-- After the opening brace: an empty object, or the first member then
the comma-separated rest. -/
def parseObjStart : ℕ → List Char → Except PErr (Json × List Char)
  | 0, _ => .error .fuel
  | _ + 1, [] => .error .unexpected
  | f + 1, c :: rest =>
      if c = '\x7d' then .ok (.obj [], rest)
      else if c = '"' then do
        let k ← parseStringBody rest
        match k.2 with
        | [] => .error .unexpected
        | c2 :: r2 =>
            if c2 = ':' then do
              let v ← parseVal f r2
              let fs ← parseObjRest f v.2
              .ok (.obj ((k.1, v.1) :: fs.1), fs.2)
            else .error .unexpected
      else .error .unexpected

/-- After one object member: the closing brace, or a comma and the next
member. -/
def parseObjRest : ℕ → List Char → Except PErr (List (List Char × Json) × List Char)
  | 0, _ => .error .fuel
  | _ + 1, [] => .error .unexpected
  | f + 1, c :: rest =>
      if c = '\x7d' then .ok ([], rest)
      else if c = ',' then
        match rest with
        | [] => .error .unexpected
        | c2 :: r2 =>
            if c2 = '"' then do
              let k ← parseStringBody r2
              match k.2 with
              | [] => .error .unexpected
              | c3 :: r3 =>
                  if c3 = ':' then do
                    let v ← parseVal f r3
                    let fs ← parseObjRest f v.2
                    .ok ((k.1, v.1) :: fs.1, fs.2)
                  else .error .unexpected
            else .error .unexpected
      else .error .unexpected

end

/-- JSON.parse on the whitespace-free grammar: parse one value with ample
fuel and require the input to be fully consumed. -/
def jsonParse (cs : List Char) : Except PErr Json :=
  match parseVal (2 * cs.length + 2) cs with
  | .ok (v, []) => .ok v
  | .ok (_, _ :: _) => .error .unexpected
  | .error e => .error e

theorem digit_char_toNat : ∀ n, n < 10 → (Char.ofNat (48 + n)).toNat = 48 + n := by
  decide

theorem natDigits_spec : ∀ n : ℕ,
    (∀ c ∈ natDigits n, isDigitChar c = true) ∧
      digitsVal ((natDigits n).map (fun c => c.toNat - 48)) = n ∧
      natDigits n ≠ [] := by
  intro n
  induction n using Nat.strong_induction_on with
  | _ n ih =>
    by_cases h : n < 10
    · rw [natDigits, dif_pos h]
      have ht := digit_char_toNat n h
      refine ⟨?_, ?_, by simp⟩
      · intro c hc
        rw [List.mem_singleton] at hc
        subst hc
        simp [isDigitChar, ht]
        omega
      · simp [digitsVal, ht]
    · rw [natDigits, dif_neg h]
      have hdiv : n / 10 < n := Nat.div_lt_self (by omega) (by omega)
      obtain ⟨ihd, ihv, _⟩ := ih (n / 10) hdiv
      have ht := digit_char_toNat (n % 10) (by omega)
      refine ⟨?_, ?_, by simp⟩
      · intro c hc
        rcases List.mem_append.mp hc with hm | hm
        · exact ihd c hm
        · rw [List.mem_singleton] at hm
          subst hm
          simp [isDigitChar, ht]
          omega
      · rw [List.map_append, List.map_singleton, ht]
        rw [digitsVal, List.foldl_append]
        rw [digitsVal] at ihv
        rw [ihv]
        simp
        omega

/-- The remainder after a printed number must not begin with a digit
(in printed JSON it is empty or starts with a separator). -/
def RestOk (rest : List Char) : Prop :=
  match rest with
  | [] => True
  | c :: _ => isDigitChar c = false

theorem takeDigits_restOk {rest : List Char} (h : RestOk rest) :
    takeDigits rest = ([], rest) := by
  cases rest with
  | nil => rfl
  | cons c r =>
    rw [RestOk] at h
    simp [takeDigits, h]

theorem takeDigits_digits_append (a : List Char)
    (ha : ∀ c ∈ a, isDigitChar c = true) (rest : List Char) :
    takeDigits (a ++ rest) =
      (a.map (fun c => c.toNat - 48) ++ (takeDigits rest).1,
        (takeDigits rest).2) := by
  induction a with
  | nil => simp
  | cons c a2 ih =>
    have hc : isDigitChar c = true := ha c (List.mem_cons_self c a2)
    rw [List.cons_append, takeDigits, if_pos hc,
      ih (fun x hx => ha x (List.mem_cons_of_mem c hx))]
    simp

theorem parse_nat_chars (n : ℕ) (rest : List Char) (h : RestOk rest) :
    takeDigits (natDigits n ++ rest) =
        ((natDigits n).map (fun c => c.toNat - 48), rest) ∧
      digitsVal ((natDigits n).map (fun c => c.toNat - 48)) = n := by
  obtain ⟨hd, hv, _⟩ := natDigits_spec n
  refine ⟨?_, hv⟩
  rw [takeDigits_digits_append (natDigits n) hd rest, takeDigits_restOk h]
  simp

theorem hexVal_hexDigit : ∀ d, d < 16 → hexVal (hexDigit d) = some d := by
  decide

theorem parseStringBody_escape :
    ∀ s rest, parseStringBody (escapeString s ++ '"' :: rest) =
      .ok (s, rest) := by
  intro s
  induction s with
  | nil =>
    intro rest
    simp [escapeString, parseStringBody]
  | cons c s2 ih =>
    intro rest
    rw [escapeString, List.append_assoc]
    by_cases h1 : c = '"'
    · subst h1
      simp [escapeChar, parseStringBody, parseEscape, ih, Except.map]
    · by_cases h2 : c = '\\'
      · subst h2
        simp [escapeChar, parseStringBody, parseEscape, ih, Except.map]
      · by_cases h3 : c = '\x08'
        · subst h3
          simp [escapeChar, parseStringBody, parseEscape, ih, Except.map]
        · by_cases h4 : c = '\t'
          · subst h4
            simp [escapeChar, parseStringBody, parseEscape, ih, Except.map]
          · by_cases h5 : c = '\n'
            · subst h5
              simp [escapeChar, parseStringBody, parseEscape, ih, Except.map]
            · by_cases h6 : c = '\x0c'
              · subst h6
                simp [escapeChar, parseStringBody, parseEscape, ih, Except.map]
              · by_cases h7 : c = '\r'
                · subst h7
                  simp [escapeChar, parseStringBody, parseEscape, ih, Except.map]
                · by_cases h8 : c.toNat < 32
                  · rw [escapeChar, if_neg h1, if_neg h2, if_neg h3, if_neg h4,
                      if_neg h5, if_neg h6, if_neg h7, if_pos h8]
                    have hhi := hexVal_hexDigit (c.toNat / 16) (by omega)
                    have hlo := hexVal_hexDigit (c.toNat % 16) (by omega)
                    simp only [List.cons_append, List.nil_append]
                    rw [parseStringBody]
                    rw [if_neg (by decide), if_pos rfl]
                    rw [parseEscape]
                    rw [if_neg (by decide), if_neg (by decide),
                      if_neg (by decide), if_neg (by decide),
                      if_neg (by decide), if_neg (by decide),
                      if_neg (by decide), if_neg (by decide), if_pos rfl]
                    have h0 : hexVal '0' = some 0 := by decide
                    rw [h0, hhi, hlo]
                    have harg : ((0 * 16 + 0) * 16 + c.toNat / 16) * 16 +
                        c.toNat % 16 = c.toNat := by omega
                    show Except.map (fun p =>
                      (Char.ofNat (((0 * 16 + 0) * 16 + c.toNat / 16) * 16 +
                        c.toNat % 16) :: p.1, p.2))
                      (parseStringBody (escapeString s2 ++ ('"' : Char) :: rest)) =
                      Except.ok (c :: s2, rest)
                    rw [harg, Char.ofNat_toNat, ih]
                    rfl
                  · rw [escapeChar, if_neg h1, if_neg h2, if_neg h3, if_neg h4,
                      if_neg h5, if_neg h6, if_neg h7, if_neg h8]
                    simp only [List.cons_append, List.nil_append]
                    rw [parseStringBody, if_neg h1, if_neg h2, if_neg h8, ih]
                    rfl

theorem natDigits_head (n : ℕ) :
    ∃ c cs, natDigits n = c :: cs ∧ isDigitChar c = true := by
  obtain ⟨hd, _, hne⟩ := natDigits_spec n
  cases he : natDigits n with
  | nil => exact absurd he hne
  | cons c cs =>
    exact ⟨c, cs, rfl, hd c (he ▸ List.mem_cons_self c cs)⟩

theorem stringify_head (v : Json) :
    ∃ c cs, stringifyJson v = c :: cs ∧ c ≠ ']' := by
  cases v with
  | null => exact ⟨'n', _, rfl, by decide⟩
  | bool b =>
    cases b with
    | true => exact ⟨'t', _, rfl, by decide⟩
    | false => exact ⟨'f', _, rfl, by decide⟩
  | num n =>
    show ∃ c cs, intChars n = c :: cs ∧ c ≠ ']'
    rw [intChars]
    by_cases h : n < 0
    · rw [if_pos h]
      exact ⟨'-', _, rfl, by decide⟩
    · rw [if_neg h]
      obtain ⟨c, cs, he, hdig⟩ := natDigits_head n.toNat
      refine ⟨c, cs, he, ?_⟩
      intro heq
      subst heq
      rw [isDigitChar] at hdig
      revert hdig
      decide
  | str s => exact ⟨'"', _, rfl, by decide⟩
  | arr xs =>
    cases xs with
    | nil => exact ⟨'[', _, rfl, by decide⟩
    | cons x xs2 => exact ⟨'[', _, rfl, by decide⟩
  | obj fs =>
    cases fs with
    | nil => exact ⟨'\x7b', _, rfl, by decide⟩
    | cons f fs2 => exact ⟨'\x7b', _, rfl, by decide⟩

theorem stringify_ne_nil (v : Json) : stringifyJson v ≠ [] := by
  obtain ⟨c, cs, he, _⟩ := stringify_head v
  rw [he]
  simp

theorem stringify_length_pos (v : Json) : 1 ≤ (stringifyJson v).length := by
  obtain ⟨c, cs, he, _⟩ := stringify_head v
  rw [he]
  simp

theorem stringifyArrRest_length_pos (xs : List Json) :
    1 ≤ (stringifyArrRest xs).length := by
  cases xs with
  | nil => simp [stringifyArrRest]
  | cons x xs2 => simp [stringifyArrRest]

theorem stringifyObjRest_length_pos (fs : List (List Char × Json)) :
    1 ≤ (stringifyObjRest fs).length := by
  cases fs with
  | nil => simp [stringifyObjRest]
  | cons f fs2 => simp [stringifyObjRest]

theorem restOk_arrRest (xs : List Json) (r : List Char) :
    RestOk (stringifyArrRest xs ++ r) := by
  cases xs with
  | nil =>
    rw [stringifyArrRest]
    show RestOk (']' :: r)
    rw [RestOk]
    decide
  | cons x xs2 =>
    rw [stringifyArrRest]
    show RestOk (',' :: _)
    rw [RestOk]
    decide

theorem restOk_objRest (fs : List (List Char × Json)) (r : List Char) :
    RestOk (stringifyObjRest fs ++ r) := by
  cases fs with
  | nil =>
    rw [stringifyObjRest]
    show RestOk ('\x7d' :: r)
    rw [RestOk]
    decide
  | cons f fs2 =>
    rw [stringifyObjRest]
    show RestOk (',' :: _)
    rw [RestOk]
    decide

@[simp]
theorem ok_bind {ε σ τ : Type} (a : σ) (f : σ → Except ε τ) :
    ((Except.ok a : Except ε σ) >>= f) = f a := rfl

theorem digit_not_special {c : Char} (h : isDigitChar c = true) :
    c ≠ 'n' ∧ c ≠ 't' ∧ c ≠ 'f' ∧ c ≠ '"' ∧ c ≠ '[' ∧ c ≠ '\x7b' ∧
      c ≠ '-' := by
  rw [isDigitChar] at h
  have hb : 48 ≤ c.toNat ∧ c.toNat ≤ 57 := by
    constructor
    · have := Bool.and_elim_left h
      simpa using this
    · have := Bool.and_elim_right h
      simpa using this
  refine ⟨?_, ?_, ?_, ?_, ?_, ?_, ?_⟩ <;>
    (intro heq; subst heq; revert hb; decide)

/-- Head step of the value parser on an opening bracket. -/
theorem parseVal_arrC (f : ℕ) (r : List Char) :
    parseVal (f + 1) ('[' :: r) = parseArrStart f r := rfl

/-- Head step of the value parser on an opening brace. -/
theorem parseVal_objC (f : ℕ) (r : List Char) :
    parseVal (f + 1) ('\x7b' :: r) = parseObjStart f r := rfl

/-- Step of the object parser past a printed key and its colon. -/
theorem parseObjStart_member (f : ℕ) (s r : List Char) :
    parseObjStart (f + 1) ('"' :: (escapeString s ++ '"' :: ':' :: r)) =
      (parseVal f r >>= fun v =>
        parseObjRest f v.2 >>= fun fs =>
          Except.ok (Json.obj ((s, v.1) :: fs.1), fs.2)) := by
  show (parseStringBody (escapeString s ++ '"' :: ':' :: r) >>= fun k =>
      match k.2 with
      | [] => Except.error PErr.unexpected
      | c2 :: r2 =>
          if c2 = ':' then
            parseVal f r2 >>= fun v =>
              parseObjRest f v.2 >>= fun fs =>
                Except.ok (Json.obj ((k.1, v.1) :: fs.1), fs.2)
          else Except.error PErr.unexpected) = _
  rw [parseStringBody_escape]
  rfl

/-- Step of the array-rest parser past a comma. -/
theorem parseArrRest_comma (f : ℕ) (r : List Char) :
    parseArrRest (f + 1) (',' :: r) =
      (parseVal f r >>= fun p =>
        parseArrRest f p.2 >>= fun q =>
          Except.ok (p.1 :: q.1, q.2)) := rfl

/-- Step of the object-rest parser past a comma, a printed key and its
colon. -/
theorem parseObjRest_comma (f : ℕ) (s r : List Char) :
    parseObjRest (f + 1) (',' :: '"' :: (escapeString s ++ '"' :: ':' :: r)) =
      (parseVal f r >>= fun v =>
        parseObjRest f v.2 >>= fun fs =>
          Except.ok ((s, v.1) :: fs.1, fs.2)) := by
  show (parseStringBody (escapeString s ++ '"' :: ':' :: r) >>= fun k =>
      match k.2 with
      | [] => Except.error PErr.unexpected
      | c3 :: r3 =>
          if c3 = ':' then
            parseVal f r3 >>= fun v =>
              parseObjRest f v.2 >>= fun fs =>
                Except.ok ((k.1, v.1) :: fs.1, fs.2)
          else Except.error PErr.unexpected) = _
  rw [parseStringBody_escape]
  rfl

theorem parse_print (f : ℕ) :
    (∀ v rest, (stringifyJson v).length ≤ f → RestOk rest →
      parseVal f (stringifyJson v ++ rest) = .ok (v, rest)) ∧
      (∀ xs rest, (stringifyArrRest xs).length ≤ f →
        parseArrRest f (stringifyArrRest xs ++ rest) = .ok (xs, rest)) ∧
      (∀ fs rest, (stringifyObjRest fs).length ≤ f →
        parseObjRest f (stringifyObjRest fs ++ rest) = .ok (fs, rest)) := by
  induction f using Nat.strong_induction_on with
  | _ f ih =>
  refine ⟨?_, ?_, ?_⟩
  · -- parseVal on a printed value
    intro v rest hlen hrest
    cases f with
    | zero => exact absurd (le_trans (stringify_length_pos v) hlen) (by omega)
    | succ f0 =>
    cases v with
    | null =>
      simp only [stringifyJson, List.cons_append, List.nil_append]
      simp [parseVal]
    | bool b =>
      cases b with
      | true =>
        simp only [stringifyJson, List.cons_append, List.nil_append]
        simp [parseVal]
      | false =>
        simp only [stringifyJson, List.cons_append, List.nil_append]
        simp [parseVal]
    | num n =>
      have hsj : stringifyJson (Json.num n) = intChars n := by
        rw [stringifyJson]
      rw [hsj]
      rw [intChars]
      by_cases hneg : n < 0
      · rw [if_pos hneg, List.cons_append]
        obtain ⟨htd, hval⟩ := parse_nat_chars n.natAbs rest hrest
        obtain ⟨c, cs, he, _⟩ := natDigits_head n.natAbs
        simp only [parseVal]
        rw [if_pos trivial, htd]
        rw [he]
        simp only [List.map_cons]
        show Except.ok (Json.num (-(digitsVal ((c.toNat - 48) ::
          cs.map (fun c => c.toNat - 48)) : ℤ)), rest) =
          Except.ok (Json.num n, rest)
        rw [he] at hval
        simp only [List.map_cons] at hval
        rw [hval]
        have hn : (-(n.natAbs : ℤ)) = n := by omega
        rw [hn]
      · rw [if_neg hneg]
        obtain ⟨c, cs, he, hdig⟩ := natDigits_head n.toNat
        obtain ⟨hn1, hn2, hn3, hn4, hn5, hn6, hn7⟩ := digit_not_special hdig
        rw [he, List.cons_append]
        simp only [parseVal]
        rw [if_neg hn1, if_neg hn2, if_neg hn3, if_neg hn4, if_neg hn5,
          if_neg hn6, if_neg hn7, if_pos hdig]
        rw [← List.cons_append, ← he]
        obtain ⟨htd, hval⟩ := parse_nat_chars n.toNat rest hrest
        rw [htd]
        show Except.ok (Json.num ((digitsVal ((natDigits n.toNat).map
          (fun c => c.toNat - 48)) : ℤ)), rest) = Except.ok (Json.num n, rest)
        rw [hval]
        have hn : ((n.toNat : ℤ)) = n := by omega
        rw [hn]
    | str s =>
      have hsj : stringifyJson (Json.str s) = quoteString s := by
        rw [stringifyJson]
      rw [hsj, quoteString, List.cons_append]
      simp only [parseVal]
      rw [if_pos trivial, List.append_assoc, List.singleton_append,
        parseStringBody_escape s rest]
      rfl
    | arr xs =>
      cases xs with
      | nil =>
        have hf0 : 1 ≤ f0 := by
          rw [stringifyJson] at hlen
          simp at hlen
          omega
        cases f0 with
        | zero => omega
        | succ f1 =>
          simp only [stringifyJson, List.cons_append, List.nil_append]
          simp [parseVal, parseArrStart]
      | cons x xs2 =>
        have hsj : stringifyJson (Json.arr (x :: xs2)) =
            '[' :: (stringifyJson x ++ stringifyArrRest xs2) := by
          rw [stringifyJson]
        rw [hsj] at hlen ⊢
        have hlx := stringify_length_pos x
        have hlr := stringifyArrRest_length_pos xs2
        have hlen2 : 1 + (stringifyJson x).length +
            (stringifyArrRest xs2).length ≤ f0 + 1 := by
          simp at hlen
          omega
        rw [List.cons_append, parseVal_arrC]
        cases f0 with
        | zero => omega
        | succ f1 =>
          rw [List.append_assoc]
          obtain ⟨c, cs, he, hne⟩ := stringify_head x
          rw [he, List.cons_append]
          simp only [parseArrStart]
          rw [if_neg hne]
          rw [← List.cons_append, ← he]
          have hP := (ih f1 (by omega)).1 x (stringifyArrRest xs2 ++ rest)
            (by omega) (restOk_arrRest xs2 rest)
          have hQ := (ih f1 (by omega)).2.1 xs2 rest (by omega)
          rw [hP]
          simp only [ok_bind]
          rw [hQ]
          simp only [ok_bind]
    | obj fs =>
      cases fs with
      | nil =>
        have hf0 : 1 ≤ f0 := by
          rw [stringifyJson] at hlen
          simp at hlen
          omega
        cases f0 with
        | zero => omega
        | succ f1 =>
          simp only [stringifyJson, List.cons_append, List.nil_append]
          simp [parseVal, parseObjStart]
      | cons kv fs2 =>
        have hsj : stringifyJson (Json.obj (kv :: fs2)) =
            '\x7b' :: (quoteString kv.1 ++ ':' :: stringifyJson kv.2 ++
              stringifyObjRest fs2) := by
          rw [stringifyJson]
        rw [hsj] at hlen ⊢
        have hlv := stringify_length_pos kv.2
        have hlr := stringifyObjRest_length_pos fs2
        have hlen2 : 1 + (quoteString kv.1).length + 1 +
            (stringifyJson kv.2).length +
            (stringifyObjRest fs2).length ≤ f0 + 1 := by
          simp at hlen
          omega
        rw [List.cons_append, parseVal_objC]
        cases f0 with
        | zero => omega
        | succ f1 =>
          rw [quoteString]
          simp only [List.append_assoc, List.cons_append,
            List.singleton_append, List.nil_append]
          rw [parseObjStart_member]
          have hP := (ih f1 (by omega)).1 kv.2 (stringifyObjRest fs2 ++ rest)
            (by omega) (restOk_objRest fs2 rest)
          have hR := (ih f1 (by omega)).2.2 fs2 rest (by omega)
          rw [hP]
          simp only [ok_bind]
          rw [hR]
          simp only [ok_bind]
  · -- parseArrRest on printed remaining elements
    intro xs rest hlen
    cases f with
    | zero =>
      exact absurd (le_trans (stringifyArrRest_length_pos xs) hlen) (by omega)
    | succ f0 =>
    cases xs with
    | nil =>
      rw [stringifyArrRest, List.singleton_append]
      simp [parseArrRest]
    | cons x xs2 =>
      have hsr : stringifyArrRest (x :: xs2) =
          ',' :: (stringifyJson x ++ stringifyArrRest xs2) := by
        rw [stringifyArrRest]
      rw [hsr] at hlen ⊢
      have hlx := stringify_length_pos x
      have hlr := stringifyArrRest_length_pos xs2
      have hlen2 : 1 + (stringifyJson x).length +
          (stringifyArrRest xs2).length ≤ f0 + 1 := by
        simp at hlen
        omega
      rw [List.cons_append, parseArrRest_comma]
      rw [List.append_assoc]
      have hP := (ih f0 (by omega)).1 x (stringifyArrRest xs2 ++ rest)
        (by omega) (restOk_arrRest xs2 rest)
      have hQ := (ih f0 (by omega)).2.1 xs2 rest (by omega)
      rw [hP]
      simp only [ok_bind]
      rw [hQ]
      simp only [ok_bind]
  · -- parseObjRest on printed remaining members
    intro fs rest hlen
    cases f with
    | zero =>
      exact absurd (le_trans (stringifyObjRest_length_pos fs) hlen) (by omega)
    | succ f0 =>
    cases fs with
    | nil =>
      rw [stringifyObjRest, List.singleton_append]
      simp [parseObjRest]
    | cons kv fs2 =>
      have hsr : stringifyObjRest (kv :: fs2) =
          ',' :: (quoteString kv.1 ++ ':' :: stringifyJson kv.2 ++
            stringifyObjRest fs2) := by
        rw [stringifyObjRest]
      rw [hsr] at hlen ⊢
      have hlv := stringify_length_pos kv.2
      have hlr := stringifyObjRest_length_pos fs2
      have hlen2 : 1 + (quoteString kv.1).length + 1 +
          (stringifyJson kv.2).length +
          (stringifyObjRest fs2).length ≤ f0 + 1 := by
        simp at hlen
        omega
      rw [List.cons_append]
      rw [quoteString]
      simp only [List.append_assoc, List.cons_append,
        List.singleton_append, List.nil_append]
      rw [parseObjRest_comma]
      have hP := (ih f0 (by omega)).1 kv.2 (stringifyObjRest fs2 ++ rest)
        (by omega) (restOk_objRest fs2 rest)
      have hR := (ih f0 (by omega)).2.2 fs2 rest (by omega)
      rw [hP]
      simp only [ok_bind]
      rw [hR]
      simp only [ok_bind]

/-- Printing a JSON value and parsing it back with the fuel used by
JSON.parse recovers the value. -/
theorem jsonParse_stringify (v : Json) :
    jsonParse (stringifyJson v) = Except.ok v := by
  have h := (parse_print (2 * (stringifyJson v).length + 2)).1 v []
    (by omega) trivial
  rw [List.append_nil] at h
  rw [jsonParse, h]

/-- handleSave's encoding of a snapshot: btoa(JSON.stringify(state)).
btoa throws InvalidCharacterError on any character above U+00FF, modeled
as the error case. -/
def encodeState (v : Json) : Except Unit (List Char) :=
  btoa (stringifyJson v)

/-- loadPreviousDrawings' decoding of a stored snapshot:
JSON.parse(atob(data)), with both failure modes collapsed to an error
value (in the source they throw and are caught by the surrounding
try/catch). -/
def decodeState (cs : List Char) : Except Unit Json :=
  match atob cs with
  | none => Except.error ()
  | some js =>
      match jsonParse js with
      | Except.ok v => Except.ok v
      | Except.error _ => Except.error ()

theorem decodeState_encodeState (v : Json) (cs : List Char)
    (h : encodeState v = Except.ok cs) : decodeState cs = Except.ok v := by
  rw [encodeState, btoa] at h
  cases hall : (stringifyJson v).all (fun c => c.toNat ≤ 255) with
  | false => rw [hall] at h; simp at h
  | true =>
    rw [hall] at h
    simp only [if_pos] at h
    have hcs : cs = btoaChunks ((stringifyJson v).map Char.toNat) := by
      cases h
      rfl
    have hb : ∀ b ∈ (stringifyJson v).map Char.toNat, b < 256 := by
      intro b hbmem
      obtain ⟨c, hc, hcb⟩ := List.mem_map.1 hbmem
      have hc255 := List.all_eq_true.1 hall c hc
      simp at hc255
      omega
    rw [hcs, decodeState, atob, atobChunks_btoaChunks _ hb]
    simp only [Option.map_some', List.map_map]
    have hmap : (stringifyJson v).map
        ((fun n => Char.ofNat n) ∘ Char.toNat) = stringifyJson v := by
      induction stringifyJson v with
      | nil => rfl
      | cons c cs ih2 => simp [Function.comp, Char.ofNat_toNat, ih2]
    rw [hmap, jsonParse_stringify]

/-- C7 counterexample: a state whose JSON text contains a character above
U+00FF (here the euro sign inside a string) cannot be encoded at all —
btoa raises InvalidCharacterError (the error case of encodeState), so
decode(encode(s)) does not return s for every valid state. -/
theorem codec_encode_unicode_counterexample :
    encodeState (Json.str ['€']) = Except.error () := rfl

/-- C7: amended round-trip. Whenever the btoa encoding of a state
succeeds — i.e. the JSON text is all Latin-1 — decoding returns the
original state; and malformed base64 input or valid base64 of non-JSON
text makes the decoder return a failure value rather than crash. -/
theorem codec_roundtrip :
    (∀ (v : Json) (cs : List Char), encodeState v = Except.ok cs →
        decodeState cs = Except.ok v) ∧
    decodeState ['*'] = Except.error () ∧
    decodeState ['I', 'Q', '=', '='] = Except.error () :=
  ⟨decodeState_encodeState, rfl, rfl⟩

theorem codec_roundtrip_witness :
    encodeState Json.null =
        Except.ok ['b', 'n', 'V', 's', 'b', 'A', '=', '='] ∧
    decodeState ['b', 'n', 'V', 's', 'b', 'A', '=', '='] =
        Except.ok Json.null :=
  ⟨rfl, codec_roundtrip.1 Json.null ['b', 'n', 'V', 's', 'b', 'A', '=', '='] rfl⟩

/-- Messages posted across the iframe boundary by the load paths. -/
inductive BoundaryMsg
  | loadComplete
  | loadError
  deriving DecidableEq

/-- Outcome of a network fetch of the stored state. -/
inductive FetchOutcome
  | ok (body : List Char)
  | httpError (status : ℕ)

/-- The prior-state reference handed to loadPreviousDrawings: absent, a
data: URI with a base64 payload, or a URL to fetch. -/
inductive LoadAttempt
  | noUrl
  | dataUri (payload : List Char)
  | fetchUrl (resp : FetchOutcome)

/-- PdfEditor's loadPreviousDrawings: result is (boundary messages
posted, whether it threw to its caller, whether a snapshot was loaded).
Every failure — malformed base64, non-JSON text, non-ok response — lands
in the surrounding try/catch, which only logs to the console: no message
is posted and nothing is rethrown. -/
def loadPreviousDrawings (att : LoadAttempt) :
    List BoundaryMsg × Bool × Bool :=
  match att with
  | .noUrl => ([], false, false)
  | .dataUri payload =>
      match decodeState payload with
      | .ok _ => ([], false, true)
      | .error _ => ([], false, false)
  | .fetchUrl (.ok body) =>
      match jsonParse body with
      | .ok _ => ([], false, true)
      | .error _ => ([], false, false)
  | .fetchUrl (.httpError _) => ([], false, false)

/-- The tail of PdfEditor's onMount: await loadPreviousDrawings, then
unconditionally post LOAD_COMPLETE to the parent frame. Result is
(messages posted, whether the mount threw). -/
def pdfMountLoad (att : LoadAttempt) : List BoundaryMsg × Bool :=
  ((loadPreviousDrawings att).1 ++ [BoundaryMsg.loadComplete],
    (loadPreviousDrawings att).2.1)

/-- The standalone whiteboard's loadState effect: a non-ok status or a
JSON parse failure throws into the catch, which posts LOAD_ERROR and
still marks the state loaded; success posts LOAD_COMPLETE. Result is
(messages posted, isStateLoaded afterwards). -/
def loadState (resp : FetchOutcome) : List BoundaryMsg × Bool :=
  match resp with
  | .ok body =>
      match jsonParse body with
      | .ok _ => ([BoundaryMsg.loadComplete], true)
      | .error _ => ([BoundaryMsg.loadError], true)
  | .httpError _ => ([BoundaryMsg.loadError], true)

/-- Whether the fetched state fails to decode: non-ok status or
unparseable body. -/
def fetchDecodeFails : FetchOutcome → Bool
  | .ok body =>
      match jsonParse body with
      | .ok _ => false
      | .error _ => true
  | .httpError _ => true

/-- C6 counterexample: a data: URI whose payload is malformed base64
fails to decode, yet the PdfEditor mount posts only LOAD_COMPLETE — the
failure never crosses the frame boundary as an event. -/
theorem load_failure_unreported_counterexample :
    decodeState ['*'] = Except.error () ∧
    pdfMountLoad (LoadAttempt.dataUri ['*']) =
      ([BoundaryMsg.loadComplete], false) ∧
    BoundaryMsg.loadError ∉ (pdfMountLoad (LoadAttempt.dataUri ['*'])).1 := by
  refine ⟨rfl, rfl, ?_⟩
  decide

/-- C6 amended: a failing prior-state decode never throws to its caller
and never blocks completion — the PdfEditor mount always finishes with
exactly LOAD_COMPLETE posted and no failure event, swallowing the error
locally — while only the standalone loadState effect reports a failed
fetch or parse outward as LOAD_ERROR, still marking the load finished. -/
theorem load_failure_behavior :
    (∀ att, (pdfMountLoad att).2 = false ∧
        (pdfMountLoad att).1 = [BoundaryMsg.loadComplete]) ∧
    (∀ resp, fetchDecodeFails resp = true →
        loadState resp = ([BoundaryMsg.loadError], true)) := by
  refine ⟨?_, ?_⟩
  · intro att
    cases att with
    | noUrl => exact ⟨rfl, rfl⟩
    | dataUri payload =>
      simp only [pdfMountLoad, loadPreviousDrawings]
      cases decodeState payload <;> simp
    | fetchUrl resp =>
      cases resp with
      | ok body =>
        simp only [pdfMountLoad, loadPreviousDrawings]
        cases jsonParse body <;> simp
      | httpError s => exact ⟨rfl, rfl⟩
  · intro resp hf
    cases resp with
    | ok body =>
      simp only [fetchDecodeFails] at hf
      simp only [loadState]
      cases hj : jsonParse body with
      | ok v =>
        rw [hj] at hf
        simp at hf
      | error e => rfl
    | httpError s => rfl

theorem load_failure_behavior_witness :
    fetchDecodeFails (FetchOutcome.httpError 404) = true ∧
    loadState (FetchOutcome.httpError 404) =
      ([BoundaryMsg.loadError], true) :=
  ⟨rfl, load_failure_behavior.2 (FetchOutcome.httpError 404) rfl⟩

end TldrawPdf
